import Mathlib

/-!
Verification of the `@valora/logging` redaction pipeline (src/src/logging.ts).

The development shallowly embeds the pipeline of `createLogger`'s `_emit`
proxy:

  `Object.assign(logRecord,
     redact(JSON.parse(globalReplace(JSON.stringify(rest, bigIntReplacer)))))`

Values are modelled by the inductive `JVal` (JSON-representable values plus
the JavaScript kinds `bigint`, `undefined`, `function`, `symbol` that
`JSON.stringify` treats specially).  `JSON.stringify(·, bigIntReplacer)` and
`JSON.parse` are modelled by an executable serializer and parser over
character lists, so that `globalReplace : String → String` acts on real
serialized text, as in the source.  `fast-redact` (with `serialize: false`)
is modelled by `redact`.  A second, heap-based semantics (`emitH`) models the
same pipeline over an explicit object heap, which is needed to state the
non-mutation (frame) properties: there, `JSON.parse` allocates fresh
addresses and `fast-redact` mutates the parsed copy in place.
-/

namespace VLog

/-- JSON-representable values plus the JavaScript value kinds `bigint`,
`undefined`, `function` and `symbol`, which `JSON.stringify` treats
specially.  Objects are insertion-ordered key/value lists, as in JS. -/
inductive JVal where
  | null : JVal
  | bool (b : Bool) : JVal
  | num (n : Int) : JVal
  | str (s : String) : JVal
  | big (n : Int) : JVal
  | undef : JVal
  | func : JVal
  | sym : JVal
  | arr (xs : List JVal) : JVal
  | obj (fs : List (String × JVal)) : JVal

/-! ### Characters and decimal text -/

/-- The double-quote character. -/
def qmark : Char := Char.ofNat 34

/-- The backslash character. -/
def bslash : Char := Char.ofNat 92

/-- The left curly brace character. -/
def lcurl : Char := Char.ofNat 123

/-- The right curly brace character. -/
def rcurl : Char := Char.ofNat 125

/-- The left square bracket character. -/
def lbrack : Char := Char.ofNat 91

/-- The right square bracket character. -/
def rbrack : Char := Char.ofNat 93

/-- The comma character. -/
def comma : Char := Char.ofNat 44

/-- The colon character. -/
def colon : Char := Char.ofNat 58

/-- Decimal digit test on characters (codepoints 48–57). -/
def isDigitB (c : Char) : Bool := 48 ≤ c.toNat && c.toNat ≤ 57

/-- The decimal digit character for `d < 10` (defaults to `'9'` above 9). -/
def digitChar : Nat → Char
  | 0 => '0' | 1 => '1' | 2 => '2' | 3 => '3' | 4 => '4'
  | 5 => '5' | 6 => '6' | 7 => '7' | 8 => '8' | _ => '9'

/-- Decimal representation of a natural number as characters. -/
def natChars (n : Nat) : List Char :=
  if _h : n < 10 then [digitChar n]
  else natChars (n / 10) ++ [digitChar (n % 10)]
  termination_by n
  decreasing_by exact Nat.div_lt_self (by omega) (by omega)

/-- Decimal representation of an integer as characters. -/
def intChars (n : Int) : List Char :=
  if n < 0 then '-' :: natChars n.natAbs else natChars n.toNat

/-- Decimal representation of a natural number as a string. -/
def natStr (n : Nat) : String := String.mk (natChars n)

/-- Decimal representation of an integer as a string; models
JavaScript's `BigInt.prototype.toString`. -/
def intStr (n : Int) : String := String.mk (intChars n)

/-- Reads a digit list back into a natural number. -/
def charsToNat (cs : List Char) : Nat :=
  cs.foldl (fun a c => 10 * a + (c.toNat - 48)) 0

/-! ### String escaping and the serializer

`strValC` models `JSON.stringify(·, bigIntReplacer)` (src/src/logging.ts
line 96 together with `bigIntReplacer`, lines 305–307): `bigint` values are
replaced by their decimal text; `undefined`, functions and symbols are
omitted from objects, become `null` in arrays, and make the top-level result
`undefined` (here: `none`). -/

/-- JSON string escaping of one character (quote and backslash). -/
def escChar (c : Char) : List Char :=
  if c = qmark || c = bslash then [bslash, c] else [c]

/-- JSON string escaping of a character list. -/
def escChars : List Char → List Char
  | [] => []
  | c :: cs => escChar c ++ escChars cs

/-- A quoted JSON string token for the given content characters. -/
def strQ (s : List Char) : List Char := qmark :: escChars s ++ [qmark]

mutual

/-- Serialization of one value; `none` models `JSON.stringify` returning
`undefined` (for `undefined`, functions, symbols).  `big` values are
serialized through `bigIntReplacer`, i.e. as their decimal text in quotes. -/
def strValC : JVal → Option (List Char)
  | JVal.null => some "null".data
  | JVal.bool b => some (cond b "true".data "false".data)
  | JVal.num n => some (intChars n)
  | JVal.str s => some (strQ s.data)
  | JVal.big n => some (strQ (intChars n))
  | JVal.undef => none
  | JVal.func => none
  | JVal.sym => none
  | JVal.arr xs => some (lbrack :: strElemsC xs ++ [rbrack])
  | JVal.obj fs => some (lcurl :: strMembersC fs ++ [rcurl])

/-- Serialization of array elements; unserializable elements print as
`null`, as `JSON.stringify` does inside arrays. -/
def strElemsC : List JVal → List Char
  | [] => []
  | [x] => (strValC x).getD "null".data
  | x :: xs => ((strValC x).getD "null".data) ++ comma :: strElemsC xs

/-- Serialization of object members; members whose value serializes to
`undefined` are skipped, as `JSON.stringify` does inside objects. -/
def strMembersC : List (String × JVal) → List Char
  | [] => []
  | (k, v) :: fs =>
    match strValC v with
    | none => strMembersC fs
    | some sv =>
      let rest := strMembersC fs
      if rest.isEmpty then strQ k.data ++ colon :: sv
      else strQ k.data ++ colon :: sv ++ comma :: rest

end

/-- Models the call `JSON.stringify(rest, bigIntReplacer)` of
src/src/logging.ts line 96 as a `String`-producing function. -/
def jsonStringify (v : JVal) : Option String := (strValC v).map String.mk

/-! ### The parser (models `JSON.parse`)

A standard recursive-descent JSON parser over character lists, fuelled for
termination (the fuel picked by `parseJson` is always sufficient, see
`parse_jsonStringify`).  Duplicate keys follow JavaScript object-assignment
semantics: the last occurrence wins, at the position of the first. -/

/-- JSON whitespace. -/
def wsChar (c : Char) : Bool := c = ' ' || c = '\t' || c = '\n' || c = '\r'

/-- Skips JSON whitespace. -/
def skipWs (cs : List Char) : List Char := cs.dropWhile wsChar

/-- Unescaping of a single JSON escape character. -/
def unescChar (c : Char) : Option Char :=
  if c = qmark then some qmark
  else if c = bslash then some bslash
  else if c = '/' then some '/'
  else if c = 'n' then some '\n'
  else if c = 't' then some '\t'
  else if c = 'r' then some '\r'
  else none

/-- Parses the body of a JSON string after the opening quote; returns the
content characters and the input after the closing quote. -/
def parseStr : List Char → Option (List Char × List Char)
  | [] => none
  | [c] => if c = qmark then some ([], []) else none
  | c :: e :: cs =>
    if c = qmark then some ([], e :: cs)
    else if c = bslash then
      match unescChar e with
      | none => none
      | some ch =>
        match parseStr cs with
        | none => none
        | some (s, r) => some (ch :: s, r)
    else
      match parseStr (e :: cs) with
      | none => none
      | some (s, r) => some (c :: s, r)

/-- Parses the digits of a number (the optional sign was already
consumed). -/
def parseNumTail (neg : Bool) (cs : List Char) : Option (JVal × List Char) :=
  let ds := cs.takeWhile isDigitB
  if ds.isEmpty then none
  else
    let n : Int := (charsToNat ds : Nat)
    some (JVal.num (if neg then -n else n), cs.dropWhile isDigitB)

/-- JavaScript object-assignment on a key/value list: if the key is present
its value is replaced in place, otherwise the pair is appended.  Used both
for duplicate keys in `JSON.parse` and for `Object.assign`. -/
def setKeyG {α : Type} (fs : List (String × α)) (k : String) (v : α) :
    List (String × α) :=
  if fs.any (fun kv => kv.1 = k) then
    fs.map (fun kv => if kv.1 = k then (k, v) else kv)
  else fs ++ [(k, v)]

/-- Collapses a raw member list with JavaScript duplicate-key semantics. -/
def collapseFields (raw : List (String × JVal)) : List (String × JVal) :=
  raw.foldl (fun acc kv => setKeyG acc kv.1 kv.2) []

mutual

/-- Parses one JSON value. -/
def parseVal : Nat → List Char → Option (JVal × List Char)
  | 0, _ => none
  | f + 1, cs =>
    match skipWs cs with
    | [] => none
    | c :: cs' =>
      if c = qmark then
        match parseStr cs' with
        | none => none
        | some (s, r) => some (JVal.str (String.mk s), r)
      else if c = lcurl then
        match skipWs cs' with
        | [] => none
        | d :: cs'' =>
          if d = rcurl then some (JVal.obj [], cs'')
          else
            match parseMembers f (d :: cs'') with
            | none => none
            | some (raw, r) => some (JVal.obj (collapseFields raw), r)
      else if c = lbrack then
        match skipWs cs' with
        | [] => none
        | d :: cs'' =>
          if d = rbrack then some (JVal.arr [], cs'')
          else
            match parseElems f (d :: cs'') with
            | none => none
            | some (xs, r) => some (JVal.arr xs, r)
      else if c = 'n' then
        match cs' with
        | 'u' :: 'l' :: 'l' :: r => some (JVal.null, r)
        | _ => none
      else if c = 't' then
        match cs' with
        | 'r' :: 'u' :: 'e' :: r => some (JVal.bool true, r)
        | _ => none
      else if c = 'f' then
        match cs' with
        | 'a' :: 'l' :: 's' :: 'e' :: r => some (JVal.bool false, r)
        | _ => none
      else if c = '-' then parseNumTail true cs'
      else if isDigitB c then parseNumTail false (c :: cs')
      else none

/-- Parses a nonempty comma-separated element list up to `]`. -/
def parseElems : Nat → List Char → Option (List JVal × List Char)
  | 0, _ => none
  | f + 1, cs =>
    match parseVal f cs with
    | none => none
    | some (v, r) =>
      match skipWs r with
      | [] => none
      | c :: r' =>
        if c = comma then
          match parseElems f (skipWs r') with
          | none => none
          | some (xs, r2) => some (v :: xs, r2)
        else if c = rbrack then some ([v], r')
        else none

/-- Parses a nonempty member list up to the closing brace; returns the raw
members in textual order. -/
def parseMembers : Nat → List Char → Option (List (String × JVal) × List Char)
  | 0, _ => none
  | f + 1, cs =>
    match cs with
    | [] => none
    | c :: cs' =>
      if c = qmark then
        match parseStr cs' with
        | none => none
        | some (kcs, r) =>
          match skipWs r with
          | [] => none
          | d :: r' =>
            if d = colon then
              match parseVal f r' with
              | none => none
              | some (v, r2) =>
                match skipWs r2 with
                | [] => none
                | e :: r3 =>
                  if e = comma then
                    match parseMembers f (skipWs r3) with
                    | none => none
                    | some (fs, r4) => some ((String.mk kcs, v) :: fs, r4)
                  else if e = rcurl then some ([(String.mk kcs, v)], r3)
                  else none
            else none
      else none

end

/-- Models `JSON.parse` on a string: `none` models a thrown `SyntaxError`.
The fuel bound is always sufficient (see `parse_jsonStringify`). -/
def parseJson (s : String) : Option JVal :=
  match parseVal (2 * s.data.length + 2) s.data with
  | none => none
  | some (v, r) => if (skipWs r).isEmpty then some v else none

/-! ### The value normalizer

`bigIntReplacer` is the replacer of src/src/logging.ts lines 305–307:

  `return typeof value === 'bigint' ? value.toString() : value`

`normalize` is its recursive application to a whole value, which is how
`JSON.stringify` applies a replacer. -/

/-- One-value normalization, translated from `bigIntReplacer`. -/
def bigIntReplacer : JVal → JVal
  | JVal.big n => JVal.str (intStr n)
  | v => v

mutual

/-- Recursive application of `bigIntReplacer` (the spec's Value
Normalizer). -/
def normalize : JVal → JVal
  | JVal.big n => JVal.str (intStr n)
  | JVal.arr xs => JVal.arr (normalizeList xs)
  | JVal.obj fs => JVal.obj (normalizeFields fs)
  | v => v

/-- `normalize` on element lists. -/
def normalizeList : List JVal → List JVal
  | [] => []
  | x :: xs => normalize x :: normalizeList xs

/-- `normalize` on member lists. -/
def normalizeFields : List (String × JVal) → List (String × JVal)
  | [] => []
  | (k, v) :: fs => (k, normalize v) :: normalizeFields fs

end

/-! ### Serialized-form predicates and the round-trip normal form -/

/-- Values that `JSON.stringify` does not drop. -/
def serializableB : JVal → Bool
  | JVal.undef => false
  | JVal.func => false
  | JVal.sym => false
  | _ => true

/-- Key lists without duplicate keys. -/
def keysNodupB : List (String × JVal) → Bool
  | [] => true
  | (k, _) :: fs => !(fs.any (fun kv => kv.1 = k)) && keysNodupB fs

mutual

/-- Well-formed values: no duplicate object keys anywhere (JavaScript
objects cannot have duplicate keys). -/
def wfKeysB : JVal → Bool
  | JVal.arr xs => wfKeysListB xs
  | JVal.obj fs => keysNodupB fs && wfKeysFieldsB fs
  | _ => true

/-- `wfKeysB` on element lists. -/
def wfKeysListB : List JVal → Bool
  | [] => true
  | x :: xs => wfKeysB x && wfKeysListB xs

/-- `wfKeysB` on member lists. -/
def wfKeysFieldsB : List (String × JVal) → Bool
  | [] => true
  | (_, v) :: fs => wfKeysB v && wfKeysFieldsB fs

end

mutual

/-- Values in round-trip normal form: JSON-native kinds only, no duplicate
object keys. -/
def cleanB : JVal → Bool
  | JVal.null => true
  | JVal.bool _ => true
  | JVal.num _ => true
  | JVal.str _ => true
  | JVal.arr xs => cleanListB xs
  | JVal.obj fs => keysNodupB fs && cleanFieldsB fs
  | _ => false

/-- `cleanB` on element lists. -/
def cleanListB : List JVal → Bool
  | [] => true
  | x :: xs => cleanB x && cleanListB xs

/-- `cleanB` on member lists. -/
def cleanFieldsB : List (String × JVal) → Bool
  | [] => true
  | (_, v) :: fs => cleanB v && cleanFieldsB fs

end

mutual

/-- The round-trip normal form of a value: what `JSON.parse` returns on the
`JSON.stringify(·, bigIntReplacer)` output (see `parse_jsonStringify`):
`bigint` becomes decimal text, unserializable array elements become `null`,
unserializable object members are dropped. -/
def cleanseV : JVal → JVal
  | JVal.big n => JVal.str (intStr n)
  | JVal.arr xs => JVal.arr (cleanseList xs)
  | JVal.obj fs => JVal.obj (cleanseFields fs)
  | v => v

/-- `cleanseV` on element lists. -/
def cleanseList : List JVal → List JVal
  | [] => []
  | x :: xs =>
    (if serializableB x then cleanseV x else JVal.null) :: cleanseList xs

/-- `cleanseV` on member lists. -/
def cleanseFields : List (String × JVal) → List (String × JVal)
  | [] => []
  | (k, v) :: fs =>
    if serializableB v then (k, cleanseV v) :: cleanseFields fs
    else cleanseFields fs

end

mutual

/-- Parser fuel cost of a value (an upper bound on the fuel `parseVal`
needs; see the round-trip lemmas). -/
def costV : JVal → Nat
  | JVal.arr [] => 1
  | JVal.arr (x :: xs) => 1 + costElems (x :: xs)
  | JVal.obj [] => 1
  | JVal.obj (f :: fs) => 1 + costMembers (f :: fs)
  | _ => 1

/-- Parser fuel cost of an element list. -/
def costElems : List JVal → Nat
  | [] => 1
  | x :: xs => 1 + costV x + costElems xs

/-- Parser fuel cost of a member list. -/
def costMembers : List (String × JVal) → Nat
  | [] => 1
  | (_, v) :: fs => 1 + costV v + costMembers fs

end

/-! ### Round-trip: auxiliary character and number lemmas -/

theorem costV_pos (v : JVal) : 1 ≤ costV v := by
  cases v with
  | arr xs => cases xs <;> simp [costV]
  | obj fs => cases fs <;> simp [costV]
  | _ => simp [costV]

theorem costElems_pos (xs : List JVal) : 1 ≤ costElems xs := by
  cases xs with
  | nil => simp [costElems]
  | cons x xs => simp [costElems]; omega

theorem costMembers_pos (fs : List (String × JVal)) : 1 ≤ costMembers fs := by
  cases fs with
  | nil => simp [costMembers]
  | cons f fs => obtain ⟨k, v⟩ := f; simp [costMembers]; omega

theorem digitChar_toNat {d : Nat} (h : d < 10) :
    (digitChar d).toNat = 48 + d := by
  interval_cases d <;> rfl

theorem isDigitB_iff {c : Char} :
    isDigitB c = true ↔ 48 ≤ c.toNat ∧ c.toNat ≤ 57 := by
  simp [isDigitB]

theorem isDigitB_digitChar {d : Nat} (h : d < 10) :
    isDigitB (digitChar d) = true := by
  rw [isDigitB_iff, digitChar_toNat h]; omega

theorem char_ne_of_toNat_ne {a b : Char} (h : a.toNat ≠ b.toNat) : a ≠ b :=
  fun he => h (by rw [he])

theorem natChars_ne_nil (n : Nat) : natChars n ≠ [] := by
  rw [natChars]
  split <;> simp

theorem natChars_digits (n : Nat) : ∀ c ∈ natChars n, isDigitB c = true := by
  induction n using Nat.strong_induction_on with
  | _ n ih =>
    rw [natChars]
    split
    next h =>
      intro c hc
      simp at hc
      subst hc
      exact isDigitB_digitChar h
    next h =>
      intro c hc
      simp at hc
      rcases hc with hc | hc
      · exact ih (n / 10) (Nat.div_lt_self (by omega) (by omega)) c hc
      · subst hc
        exact isDigitB_digitChar (Nat.mod_lt _ (by omega))

theorem charsToNat_append (cs ds : List Char) :
    charsToNat (cs ++ ds) =
      (cs ++ ds).foldl (fun a c => 10 * a + (c.toNat - 48)) 0 := rfl

theorem charsToNat_foldl (a : Nat) (cs : List Char) :
    cs.foldl (fun a c => 10 * a + (c.toNat - 48)) a =
      a * 10 ^ cs.length + charsToNat cs := by
  induction cs generalizing a with
  | nil => simp [charsToNat]
  | cons c cs ih =>
    show List.foldl _ (10 * a + (c.toNat - 48)) cs = _
    rw [ih]
    show _ = a * 10 ^ (cs.length + 1) + List.foldl _ (10 * 0 + (c.toNat - 48)) cs
    rw [ih (10 * 0 + (c.toNat - 48))]
    ring

theorem charsToNat_natChars (n : Nat) : charsToNat (natChars n) = n := by
  induction n using Nat.strong_induction_on with
  | _ n ih =>
    rw [natChars]
    split
    next h =>
      show charsToNat [digitChar n] = n
      show (10 * 0 + ((digitChar n).toNat - 48)) = n
      rw [digitChar_toNat h]
      omega
    next h =>
      show charsToNat (natChars (n / 10) ++ [digitChar (n % 10)]) = n
      show List.foldl _ 0 (natChars (n / 10) ++ [digitChar (n % 10)]) = n
      rw [List.foldl_append]
      show (10 * List.foldl _ 0 (natChars (n / 10)) +
        ((digitChar (n % 10)).toNat - 48)) = n
      have h1 : List.foldl
          (fun a c => 10 * a + (c.toNat - 48)) 0 (natChars (n / 10)) = n / 10 :=
        ih (n / 10) (Nat.div_lt_self (by omega) (by omega))
      rw [h1, digitChar_toNat (Nat.mod_lt _ (by omega))]
      omega

theorem takeWhile_append_of_sat {p : Char → Bool} {l1 l2 : List Char}
    (h1 : ∀ c ∈ l1, p c = true) (h2 : l2 = [] ∨ ∃ c cs, l2 = c :: cs ∧ p c = false) :
    (l1 ++ l2).takeWhile p = l1 ∧ (l1 ++ l2).dropWhile p = l2 := by
  induction l1 with
  | nil =>
    simp only [List.nil_append]
    rcases h2 with h2 | ⟨c, cs, rfl, hc⟩
    · subst h2; simp
    · simp [List.takeWhile_cons, List.dropWhile_cons, hc]
  | cons a l1 ih =>
    have ha : p a = true := h1 a (by simp)
    have := ih (fun c hc => h1 c (by simp [hc]))
    simp [List.takeWhile_cons, List.dropWhile_cons, ha, this.1, this.2]

/-- Guard: the remaining input does not begin with a digit (so a number
token before it ends exactly where printed). -/
def numOkB : List Char → Bool
  | [] => true
  | c :: _ => !(isDigitB c)

theorem parseNumTail_natChars (neg : Bool) (n : Nat) (rest : List Char)
    (h : numOkB rest = true) :
    parseNumTail neg (natChars n ++ rest) =
      some (JVal.num (if neg then -(n : Int) else (n : Int)), rest) := by
  have hrest : rest = [] ∨ ∃ c cs, rest = c :: cs ∧ isDigitB c = false := by
    cases rest with
    | nil => left; rfl
    | cons c cs =>
      right
      exact ⟨c, cs, rfl, by simpa [numOkB] using h⟩
  have htd := takeWhile_append_of_sat (natChars_digits n) hrest
  rw [parseNumTail, htd.1, htd.2]
  have hne : (natChars n).isEmpty = false := by
    cases hh : natChars n with
    | nil => exact absurd hh (natChars_ne_nil n)
    | cons c cs => rfl
  simp only [hne, Bool.false_eq_true, if_false, charsToNat_natChars]

theorem parseNumTail_intChars (n : Int) (rest : List Char)
    (h : numOkB rest = true) (f : Nat) :
    parseVal (f + 1) (intChars n ++ rest) = some (JVal.num n, rest) := by
  rw [intChars]
  split
  next hneg =>
    have hw : skipWs ('-' :: (natChars n.natAbs ++ rest)) =
        '-' :: (natChars n.natAbs ++ rest) := by
      simp [skipWs, List.dropWhile_cons, wsChar]
    show parseVal (f + 1) (('-' :: natChars n.natAbs) ++ rest) = _
    rw [List.cons_append, parseVal]
    simp only [hw]
    rw [if_neg (by decide : ¬ (('-' : Char) = qmark)),
      if_neg (by decide : ¬ (('-' : Char) = lcurl)),
      if_neg (by decide : ¬ (('-' : Char) = lbrack)),
      if_neg (by decide : ¬ (('-' : Char) = 'n')),
      if_neg (by decide : ¬ (('-' : Char) = 't')),
      if_neg (by decide : ¬ (('-' : Char) = 'f'))]
    have hval : -((n.natAbs : Nat) : Int) = n := by omega
    simp only [if_true, parseNumTail_natChars true n.natAbs rest h, hval]
  next hneg =>
    obtain ⟨c, cs, hc⟩ : ∃ c cs, natChars n.toNat = c :: cs := by
      cases hh : natChars n.toNat with
      | nil => exact absurd hh (natChars_ne_nil _)
      | cons c cs => exact ⟨c, cs, rfl⟩
    have hcd : isDigitB c = true := natChars_digits n.toNat c (by rw [hc]; simp)
    have hcb : 48 ≤ c.toNat ∧ c.toNat ≤ 57 := isDigitB_iff.mp hcd
    rw [hc, List.cons_append, parseVal]
    have hwc : wsChar c = false := by
      simp only [wsChar, Bool.or_eq_false_iff, decide_eq_false_iff_not]
      refine ⟨⟨⟨?_, ?_⟩, ?_⟩, ?_⟩ <;>
        (intro he; rw [he] at hcb; revert hcb; decide)
    have hw : skipWs (c :: (cs ++ rest)) = c :: (cs ++ rest) := by
      simp [skipWs, List.dropWhile_cons, hwc]
    simp only [hw]
    have hno : ∀ x : Char, x.toNat < 48 ∨ 57 < x.toNat → ¬ (c = x) := by
      intro x hx he
      rw [he] at hcb
      omega
    rw [if_neg (hno qmark (by decide)),
      if_neg (hno lcurl (by decide)),
      if_neg (hno lbrack (by decide)),
      if_neg (hno 'n' (by decide)),
      if_neg (hno 't' (by decide)),
      if_neg (hno 'f' (by decide)),
      if_neg (hno '-' (by decide)),
      if_pos hcd]
    have hcc : c :: (cs ++ rest) = natChars n.toNat ++ rest := by rw [hc]; rfl
    have hval : ((n.toNat : Nat) : Int) = n := by omega
    rw [hcc, parseNumTail_natChars false n.toNat rest h]
    simp only [Bool.false_eq_true, if_false, hval]

/-! ### Round-trip: strings and head characters -/

theorem skipWs_cons_of_not_ws {c : Char} (h : wsChar c = false)
    (cs : List Char) : skipWs (c :: cs) = c :: cs := by
  simp [skipWs, List.dropWhile_cons, h]

theorem parseStr_round (s rest : List Char) :
    parseStr (escChars s ++ qmark :: rest) = some (s, rest) := by
  induction s with
  | nil => cases rest <;> rfl
  | cons c cs ih =>
    show parseStr ((escChar c ++ escChars cs) ++ qmark :: rest) = _
    by_cases hq : c = qmark
    · subst hq
      have he : escChar qmark = [bslash, qmark] := by rw [escChar]; simp
      rw [he]
      show parseStr (bslash :: qmark :: (escChars cs ++ qmark :: rest)) = _
      have hb : parseStr (bslash :: qmark :: (escChars cs ++ qmark :: rest)) =
          match parseStr (escChars cs ++ qmark :: rest) with
          | none => none
          | some (s, r) => some (qmark :: s, r) := rfl
      rw [hb, ih]
    · by_cases hb : c = bslash
      · subst hb
        have he : escChar bslash = [bslash, bslash] := by rw [escChar]; simp
        rw [he]
        show parseStr (bslash :: bslash :: (escChars cs ++ qmark :: rest)) = _
        have hbb : parseStr (bslash :: bslash :: (escChars cs ++ qmark :: rest)) =
            match parseStr (escChars cs ++ qmark :: rest) with
            | none => none
            | some (s, r) => some (bslash :: s, r) := rfl
        rw [hbb, ih]
      · have he : escChar c = [c] := by
          rw [escChar, if_neg]
          simp [hq, hb]
        rw [he]
        show parseStr (c :: (escChars cs ++ qmark :: rest)) = _
        cases hsplit : escChars cs ++ qmark :: rest with
        | nil => simp at hsplit
        | cons e cs2 =>
          rw [parseStr, if_neg hq, if_neg hb]
          rw [hsplit] at ih
          rw [ih]

theorem strValC_some_of_clean {v : JVal} (h : cleanB v = true) :
    ∃ s, strValC v = some s := by
  cases v with
  | null => exact ⟨_, rfl⟩
  | bool b => exact ⟨_, rfl⟩
  | num n => exact ⟨_, rfl⟩
  | str s => exact ⟨_, rfl⟩
  | arr xs => exact ⟨_, rfl⟩
  | obj fs => exact ⟨_, rfl⟩
  | big n => simp [cleanB] at h
  | undef => simp [cleanB] at h
  | func => simp [cleanB] at h
  | sym => simp [cleanB] at h

theorem strValC_head_spec {v : JVal} {s : List Char} (h : strValC v = some s) :
    ∃ c cs, s = c :: cs ∧ wsChar c = false ∧ ¬(c = rbrack) := by
  cases v with
  | null =>
    have hs : s = "null".data := by simpa [strValC] using h.symm
    subst hs
    exact ⟨'n', _, rfl, by decide, by decide⟩
  | bool b =>
    cases b with
    | true =>
      have hs : s = "true".data := by simpa [strValC] using h.symm
      subst hs
      exact ⟨'t', _, rfl, by decide, by decide⟩
    | false =>
      have hs : s = "false".data := by simpa [strValC] using h.symm
      subst hs
      exact ⟨'f', _, rfl, by decide, by decide⟩
  | num n =>
    have hs : s = intChars n := by simpa [strValC] using h.symm
    subst hs
    rw [intChars]
    split
    · exact ⟨'-', _, rfl, by decide, by decide⟩
    · obtain ⟨c, cs, hc⟩ : ∃ c cs, natChars n.toNat = c :: cs := by
        cases hh : natChars n.toNat with
        | nil => exact absurd hh (natChars_ne_nil _)
        | cons c cs => exact ⟨c, cs, rfl⟩
      have hcd := isDigitB_iff.mp (natChars_digits n.toNat c (by rw [hc]; simp))
      refine ⟨c, cs, hc, ?_, ?_⟩
      · simp only [wsChar, Bool.or_eq_false_iff, decide_eq_false_iff_not]
        refine ⟨⟨⟨?_, ?_⟩, ?_⟩, ?_⟩ <;>
          (intro he; rw [he] at hcd; revert hcd; decide)
      · intro he; rw [he] at hcd; revert hcd; decide
  | str t =>
    have hs : s = strQ t.data := by simpa [strValC] using h.symm
    subst hs
    exact ⟨qmark, _, rfl, by decide, by decide⟩
  | big n =>
    have hs : s = strQ (intChars n) := by simpa [strValC] using h.symm
    subst hs
    exact ⟨qmark, _, rfl, by decide, by decide⟩
  | arr xs =>
    have hs : s = lbrack :: strElemsC xs ++ [rbrack] := by
      simpa [strValC] using h.symm
    subst hs
    exact ⟨lbrack, _, rfl, by decide, by decide⟩
  | obj fs =>
    have hs : s = lcurl :: strMembersC fs ++ [rcurl] := by
      simpa [strValC] using h.symm
    subst hs
    exact ⟨lcurl, _, rfl, by decide, by decide⟩
  | undef => simp [strValC] at h
  | func => simp [strValC] at h
  | sym => simp [strValC] at h

theorem setKeyG_absent {α : Type} (fs : List (String × α)) (k : String) (v : α)
    (h : fs.any (fun kv => kv.1 = k) = false) : setKeyG fs k v = fs ++ [(k, v)] := by
  rw [setKeyG, if_neg]
  simp [h]

theorem collapse_aux :
    ∀ (fs acc : List (String × JVal)), keysNodupB fs = true →
      (∀ kv ∈ fs, acc.any (fun kv2 => kv2.1 = kv.1) = false) →
      List.foldl (fun acc kv => setKeyG acc kv.1 kv.2) acc fs = acc ++ fs := by
  intro fs
  induction fs with
  | nil => intro acc _ _; simp
  | cons kv fs ih =>
    obtain ⟨k, v⟩ := kv
    intro acc hnd hacc
    rw [show keysNodupB ((k, v) :: fs) =
        (!(fs.any fun kv2 => kv2.1 = k) && keysNodupB fs) from rfl,
      Bool.and_eq_true, Bool.not_eq_true'] at hnd
    show List.foldl _ (setKeyG acc k v) fs = _
    rw [setKeyG_absent acc k v (hacc (k, v) (by simp))]
    rw [ih (acc ++ [(k, v)]) hnd.2 ?_]
    · simp
    · intro kv2 hkv2
      have h1 : acc.any (fun x => x.1 = kv2.1) = false := hacc kv2 (by simp [hkv2])
      have h2 : ¬(k = kv2.1) := by
        intro he
        have h3 := hnd.1
        rw [List.any_eq_false] at h3
        exact h3 kv2 hkv2 (by simp [he])
      simp [List.any_append, h1, h2]

theorem collapseFields_self (fs : List (String × JVal))
    (h : keysNodupB fs = true) : collapseFields fs = fs := by
  rw [collapseFields, collapse_aux fs [] h (by intro kv _; simp)]
  simp

theorem numOk_rbrack (rest : List Char) : numOkB (rbrack :: rest) = true := rfl

theorem numOk_rcurl (rest : List Char) : numOkB (rcurl :: rest) = true := rfl

theorem numOk_comma (rest : List Char) : numOkB (comma :: rest) = true := rfl

theorem strElemsC_single {x : JVal} {sx : List Char} (hx : strValC x = some sx) :
    strElemsC [x] = sx := by
  simp [strElemsC, hx]

theorem strElemsC_cons2 {x : JVal} {sx : List Char} (y : JVal) (ys : List JVal)
    (hx : strValC x = some sx) :
    strElemsC (x :: y :: ys) = sx ++ comma :: strElemsC (y :: ys) := by
  simp [strElemsC, hx]

theorem strMembersC_single (k : String) {v : JVal} {sv : List Char}
    (hv : strValC v = some sv) :
    strMembersC [(k, v)] = strQ k.data ++ colon :: sv := by
  simp [strMembersC, hv]

theorem strMembersC_qhead (k : String) {v : JVal} {sv : List Char}
    (fs : List (String × JVal)) (hv : strValC v = some sv) :
    ∃ T, strMembersC ((k, v) :: fs) = qmark :: T := by
  show ∃ T, (match strValC v with
    | none => strMembersC fs
    | some sv =>
      let rest := strMembersC fs
      if rest.isEmpty then strQ k.data ++ colon :: sv
      else strQ k.data ++ colon :: sv ++ comma :: rest) = qmark :: T
  rw [hv]
  show ∃ T, (if (strMembersC fs).isEmpty then strQ k.data ++ colon :: sv
    else strQ k.data ++ colon :: sv ++ comma :: strMembersC fs) = qmark :: T
  split
  · exact ⟨(escChars k.data ++ [qmark]) ++ colon :: sv, by simp [strQ]⟩
  · exact ⟨(escChars k.data ++ [qmark]) ++ colon :: (sv ++ comma :: strMembersC fs),
      by simp [strQ]⟩

theorem strMembersC_cons2 (k : String) {v : JVal} {sv : List Char}
    (fs : List (String × JVal)) (hv : strValC v = some sv)
    (hne : strMembersC fs ≠ []) :
    strMembersC ((k, v) :: fs) = strQ k.data ++ colon :: sv ++ comma :: strMembersC fs := by
  have hie : (strMembersC fs).isEmpty = false := by
    cases hh : strMembersC fs with
    | nil => exact absurd hh hne
    | cons a b => rfl
  show (match strValC v with
    | none => strMembersC fs
    | some sv =>
      let rest := strMembersC fs
      if rest.isEmpty then strQ k.data ++ colon :: sv
      else strQ k.data ++ colon :: sv ++ comma :: rest) = _
  rw [hv]
  show (if (strMembersC fs).isEmpty then strQ k.data ++ colon :: sv
    else strQ k.data ++ colon :: sv ++ comma :: strMembersC fs) = _
  rw [hie]
  simp

/-! ### The round-trip theorem

Parsing the printed form of a clean value recovers the value exactly. -/

mutual

theorem parseVal_round : ∀ (v : JVal) (f : Nat) (s rest : List Char),
    cleanB v = true → strValC v = some s → costV v ≤ f → numOkB rest = true →
    parseVal f (s ++ rest) = some (v, rest)
  | JVal.null, f, s, rest => by
    intro _ hs hcost _
    have hsd : s = "null".data := by simpa [strValC] using hs.symm
    subst hsd
    obtain ⟨f', rfl⟩ : ∃ f', f = f' + 1 := by
      have h1 : 1 ≤ f := le_trans (costV_pos _) hcost
      exact ⟨f - 1, by omega⟩
    rfl
  | JVal.bool true, f, s, rest => by
    intro _ hs hcost _
    have hsd : s = "true".data := by simpa [strValC] using hs.symm
    subst hsd
    obtain ⟨f', rfl⟩ : ∃ f', f = f' + 1 := by
      have h1 : 1 ≤ f := le_trans (costV_pos _) hcost
      exact ⟨f - 1, by omega⟩
    rfl
  | JVal.bool false, f, s, rest => by
    intro _ hs hcost _
    have hsd : s = "false".data := by simpa [strValC] using hs.symm
    subst hsd
    obtain ⟨f', rfl⟩ : ∃ f', f = f' + 1 := by
      have h1 : 1 ≤ f := le_trans (costV_pos _) hcost
      exact ⟨f - 1, by omega⟩
    rfl
  | JVal.num n, f, s, rest => by
    intro _ hs hcost hr
    have hsd : s = intChars n := by simpa [strValC] using hs.symm
    subst hsd
    obtain ⟨f', rfl⟩ : ∃ f', f = f' + 1 := by
      have h1 : 1 ≤ f := le_trans (costV_pos _) hcost
      exact ⟨f - 1, by omega⟩
    exact parseNumTail_intChars n rest hr f'
  | JVal.str t, f, s, rest => by
    intro _ hs hcost _
    have hsd : s = strQ t.data := by simpa [strValC] using hs.symm
    subst hsd
    obtain ⟨f', rfl⟩ : ∃ f', f = f' + 1 := by
      have h1 : 1 ≤ f := le_trans (costV_pos _) hcost
      exact ⟨f - 1, by omega⟩
    have hform : strQ t.data ++ rest =
        qmark :: (escChars t.data ++ qmark :: rest) := by
      simp [strQ]
    rw [hform]
    have hd : parseVal (f' + 1) (qmark :: (escChars t.data ++ qmark :: rest)) =
        match parseStr (escChars t.data ++ qmark :: rest) with
        | none => none
        | some (s, r) => some (JVal.str (String.mk s), r) := rfl
    rw [hd, parseStr_round]
  | JVal.big n, f, s, rest => by
    intro hc _ _ _
    simp [cleanB] at hc
  | JVal.undef, f, s, rest => by
    intro hc _ _ _
    simp [cleanB] at hc
  | JVal.func, f, s, rest => by
    intro hc _ _ _
    simp [cleanB] at hc
  | JVal.sym, f, s, rest => by
    intro hc _ _ _
    simp [cleanB] at hc
  | JVal.arr [], f, s, rest => by
    intro _ hs hcost _
    have hsd : s = lbrack :: strElemsC [] ++ [rbrack] := by
      simpa [strValC] using hs.symm
    subst hsd
    obtain ⟨f', rfl⟩ : ∃ f', f = f' + 1 := by
      have h1 : 1 ≤ f := le_trans (costV_pos _) hcost
      exact ⟨f - 1, by omega⟩
    rfl
  | JVal.arr (x :: xs), f, s, rest => by
    intro hc hs hcost _
    have hcx : cleanB x = true ∧ cleanListB xs = true := by
      simpa [cleanB, cleanListB, Bool.and_eq_true] using hc
    obtain ⟨sx, hsx⟩ := strValC_some_of_clean hcx.1
    obtain ⟨c0, cs0, hsx0, hws0, hnrb0⟩ := strValC_head_spec hsx
    have hE : ∃ E, strElemsC (x :: xs) = c0 :: E := by
      cases xs with
      | nil => exact ⟨cs0, by rw [strElemsC_single hsx, hsx0]⟩
      | cons y ys =>
        refine ⟨cs0 ++ comma :: strElemsC (y :: ys), ?_⟩
        rw [strElemsC_cons2 y ys hsx, hsx0]
        rfl
    obtain ⟨E, hEe⟩ := hE
    have hsd : s = lbrack :: strElemsC (x :: xs) ++ [rbrack] := by
      simpa [strValC] using hs.symm
    subst hsd
    have hcostE : costElems (x :: xs) ≤ f - 1 := by
      have : costV (JVal.arr (x :: xs)) = 1 + costElems (x :: xs) := rfl
      omega
    obtain ⟨f', rfl⟩ : ∃ f', f = f' + 1 := by
      have h1 : 1 ≤ f := le_trans (costV_pos _) hcost
      exact ⟨f - 1, by omega⟩
    have hform : (lbrack :: strElemsC (x :: xs) ++ [rbrack]) ++ rest =
        lbrack :: (strElemsC (x :: xs) ++ rbrack :: rest) := by
      simp
    rw [hform]
    have hd : ∀ cs : List Char, parseVal (f' + 1) (lbrack :: cs) =
        match skipWs cs with
        | [] => none
        | d :: cs2 =>
          if d = rbrack then some (JVal.arr [], cs2)
          else
            match parseElems f' (d :: cs2) with
            | none => none
            | some (xs, r) => some (JVal.arr xs, r) := fun cs => rfl
    rw [hd]
    have hEr : strElemsC (x :: xs) ++ rbrack :: rest =
        c0 :: (E ++ rbrack :: rest) := by
      rw [hEe]; rfl
    rw [hEr, skipWs_cons_of_not_ws hws0]
    show (if c0 = rbrack then some (JVal.arr [], E ++ rbrack :: rest)
      else match parseElems f' (c0 :: (E ++ rbrack :: rest)) with
        | none => none
        | some (xs2, r) => some (JVal.arr xs2, r)) =
      some (JVal.arr (x :: xs), rest)
    rw [if_neg hnrb0, ← hEr]
    rw [parseElems_round (x :: xs) f' rest (by simp)
      (by simpa [cleanB] using hc) (by omega)]
  | JVal.obj [], f, s, rest => by
    intro _ hs hcost _
    have hsd : s = lcurl :: strMembersC [] ++ [rcurl] := by
      simpa [strValC] using hs.symm
    subst hsd
    obtain ⟨f', rfl⟩ : ∃ f', f = f' + 1 := by
      have h1 : 1 ≤ f := le_trans (costV_pos _) hcost
      exact ⟨f - 1, by omega⟩
    rfl
  | JVal.obj ((k, v) :: fs), f, s, rest => by
    intro hc hs hcost _
    have hcv : keysNodupB ((k, v) :: fs) = true ∧ cleanB v = true ∧
        cleanFieldsB fs = true := by
      have h1 : cleanB (JVal.obj ((k, v) :: fs)) =
          (keysNodupB ((k, v) :: fs) && (cleanB v && cleanFieldsB fs)) := rfl
      rw [h1, Bool.and_eq_true, Bool.and_eq_true] at hc
      exact ⟨hc.1, hc.2.1, hc.2.2⟩
    obtain ⟨sv, hsv⟩ := strValC_some_of_clean hcv.2.1
    obtain ⟨T, hT⟩ := strMembersC_qhead k fs hsv
    have hsd : s = lcurl :: strMembersC ((k, v) :: fs) ++ [rcurl] := by
      simpa [strValC] using hs.symm
    subst hsd
    have hcostM : costMembers ((k, v) :: fs) ≤ f - 1 := by
      have : costV (JVal.obj ((k, v) :: fs)) =
          1 + costMembers ((k, v) :: fs) := rfl
      omega
    obtain ⟨f', rfl⟩ : ∃ f', f = f' + 1 := by
      have h1 : 1 ≤ f := le_trans (costV_pos _) hcost
      exact ⟨f - 1, by omega⟩
    have hform : (lcurl :: strMembersC ((k, v) :: fs) ++ [rcurl]) ++ rest =
        lcurl :: (strMembersC ((k, v) :: fs) ++ rcurl :: rest) := by
      simp
    rw [hform]
    have hd : ∀ cs : List Char, parseVal (f' + 1) (lcurl :: cs) =
        match skipWs cs with
        | [] => none
        | d :: cs2 =>
          if d = rcurl then some (JVal.obj [], cs2)
          else
            match parseMembers f' (d :: cs2) with
            | none => none
            | some (raw, r) => some (JVal.obj (collapseFields raw), r) :=
      fun cs => rfl
    rw [hd]
    have hTr : strMembersC ((k, v) :: fs) ++ rcurl :: rest =
        qmark :: (T ++ rcurl :: rest) := by
      rw [hT]; rfl
    rw [hTr, skipWs_cons_of_not_ws (by decide)]
    show (if qmark = rcurl then some (JVal.obj [], T ++ rcurl :: rest)
      else match parseMembers f' (qmark :: (T ++ rcurl :: rest)) with
        | none => none
        | some (raw, r) => some (JVal.obj (collapseFields raw), r)) =
      some (JVal.obj ((k, v) :: fs), rest)
    rw [if_neg (by decide : ¬ (qmark = rcurl)), ← hTr]
    rw [parseMembers_round ((k, v) :: fs) f' rest (by simp)
      (by simp [cleanFieldsB, hcv.2.1, hcv.2.2]) (by omega)]
    show some (JVal.obj (collapseFields ((k, v) :: fs)), rest) =
      some (JVal.obj ((k, v) :: fs), rest)
    rw [collapseFields_self _ hcv.1]

theorem parseElems_round : ∀ (xs : List JVal) (f : Nat) (rest : List Char),
    xs ≠ [] → cleanListB xs = true → costElems xs ≤ f →
    parseElems f (strElemsC xs ++ rbrack :: rest) = some (xs, rest)
  | [], _, _ => by intro hne _ _; exact absurd rfl hne
  | [x], f, rest => by
    intro _ hcl hcost
    have hcx : cleanB x = true := by
      simpa [cleanListB] using hcl
    obtain ⟨sx, hsx⟩ := strValC_some_of_clean hcx
    have hcost2 : 1 + costV x + 1 ≤ f := by
      have : costElems [x] = 1 + costV x + costElems [] := rfl
      have h0 : costElems ([] : List JVal) = 1 := rfl
      omega
    obtain ⟨f', rfl⟩ : ∃ f', f = f' + 1 := ⟨f - 1, by omega⟩
    have hd : ∀ cs : List Char, parseElems (f' + 1) cs =
        match parseVal f' cs with
        | none => none
        | some (v, r) =>
          match skipWs r with
          | [] => none
          | c :: r2 =>
            if c = comma then
              match parseElems f' (skipWs r2) with
              | none => none
              | some (xs, r3) => some (v :: xs, r3)
            else if c = rbrack then some ([v], r2)
            else none := fun cs => rfl
    rw [hd, strElemsC_single hsx,
      parseVal_round x f' sx (rbrack :: rest) hcx hsx (by omega)
        (numOk_rbrack rest)]
    rfl
  | x :: y :: ys, f, rest => by
    intro _ hcl hcost
    have hcx : cleanB x = true ∧ cleanListB (y :: ys) = true := by
      simpa [cleanListB, Bool.and_eq_true] using hcl
    have hcy : cleanB y = true := by
      have := hcx.2
      simp [cleanListB, Bool.and_eq_true] at this
      exact this.1
    obtain ⟨sx, hsx⟩ := strValC_some_of_clean hcx.1
    obtain ⟨sy, hsy⟩ := strValC_some_of_clean hcy
    obtain ⟨c1, cs1, hsy1, hws1, _⟩ := strValC_head_spec hsy
    have hE2 : ∃ E2, strElemsC (y :: ys) = c1 :: E2 := by
      cases ys with
      | nil => exact ⟨cs1, by rw [strElemsC_single hsy, hsy1]⟩
      | cons z zs =>
        refine ⟨cs1 ++ comma :: strElemsC (z :: zs), ?_⟩
        rw [strElemsC_cons2 z zs hsy, hsy1]
        rfl
    obtain ⟨E2, hE2e⟩ := hE2
    have hcost2 : 1 + costV x + costElems (y :: ys) ≤ f := by
      have : costElems (x :: y :: ys) = 1 + costV x + costElems (y :: ys) := rfl
      omega
    obtain ⟨f', rfl⟩ : ∃ f', f = f' + 1 := ⟨f - 1, by omega⟩
    have hd : ∀ cs : List Char, parseElems (f' + 1) cs =
        match parseVal f' cs with
        | none => none
        | some (v, r) =>
          match skipWs r with
          | [] => none
          | c :: r2 =>
            if c = comma then
              match parseElems f' (skipWs r2) with
              | none => none
              | some (xs, r3) => some (v :: xs, r3)
            else if c = rbrack then some ([v], r2)
            else none := fun cs => rfl
    rw [hd, strElemsC_cons2 y ys hsx]
    have hform : (sx ++ comma :: strElemsC (y :: ys)) ++ rbrack :: rest =
        sx ++ (comma :: (strElemsC (y :: ys) ++ rbrack :: rest)) := by
      simp
    rw [hform,
      parseVal_round x f' sx (comma :: (strElemsC (y :: ys) ++ rbrack :: rest))
        hcx.1 hsx (by omega) (numOk_comma _)]
    show (match skipWs (comma :: (strElemsC (y :: ys) ++ rbrack :: rest)) with
      | [] => none
      | c :: r2 =>
        if c = comma then
          match parseElems f' (skipWs r2) with
          | none => none
          | some (xs, r3) => some (x :: xs, r3)
        else if c = rbrack then some ([x], r2)
        else none) = some (x :: y :: ys, rest)
    simp only [skipWs_cons_of_not_ws (by decide : wsChar comma = false)]
    rw [if_pos trivial]
    have hE2r : strElemsC (y :: ys) ++ rbrack :: rest =
        c1 :: (E2 ++ rbrack :: rest) := by
      rw [hE2e]; rfl
    rw [hE2r, skipWs_cons_of_not_ws hws1, ← hE2r]
    rw [parseElems_round (y :: ys) f' rest (by simp) hcx.2 (by omega)]

theorem parseMembers_round : ∀ (fs : List (String × JVal)) (f : Nat)
    (rest : List Char), fs ≠ [] → cleanFieldsB fs = true → costMembers fs ≤ f →
    parseMembers f (strMembersC fs ++ rcurl :: rest) = some (fs, rest)
  | [], _, _ => by intro hne _ _; exact absurd rfl hne
  | [(k, v)], f, rest => by
    intro _ hcl hcost
    have hcv : cleanB v = true := by
      simpa [cleanFieldsB] using hcl
    obtain ⟨sv, hsv⟩ := strValC_some_of_clean hcv
    have hcost2 : 1 + costV v + 1 ≤ f := by
      have : costMembers [(k, v)] = 1 + costV v + costMembers [] := rfl
      have h0 : costMembers ([] : List (String × JVal)) = 1 := rfl
      omega
    obtain ⟨f', rfl⟩ : ∃ f', f = f' + 1 := ⟨f - 1, by omega⟩
    rw [strMembersC_single k hsv]
    have hform : (strQ k.data ++ colon :: sv) ++ rcurl :: rest =
        qmark :: (escChars k.data ++ qmark :: (colon :: (sv ++ rcurl :: rest))) := by
      simp [strQ]
    rw [hform]
    have hd : ∀ cs : List Char, parseMembers (f' + 1) (qmark :: cs) =
        match parseStr cs with
        | none => none
        | some (kcs, r) =>
          match skipWs r with
          | [] => none
          | d :: r2 =>
            if d = colon then
              match parseVal f' r2 with
              | none => none
              | some (v, r3) =>
                match skipWs r3 with
                | [] => none
                | e :: r4 =>
                  if e = comma then
                    match parseMembers f' (skipWs r4) with
                    | none => none
                    | some (fs2, r5) => some ((String.mk kcs, v) :: fs2, r5)
                  else if e = rcurl then some ([(String.mk kcs, v)], r4)
                  else none
            else none := fun cs => rfl
    rw [hd, parseStr_round]
    show (match skipWs (colon :: (sv ++ rcurl :: rest)) with
      | [] => none
      | d :: r2 =>
        if d = colon then
          match parseVal f' r2 with
          | none => none
          | some (v, r3) =>
            match skipWs r3 with
            | [] => none
            | e :: r4 =>
              if e = comma then
                match parseMembers f' (skipWs r4) with
                | none => none
                | some (fs2, r5) => some ((String.mk k.data, v) :: fs2, r5)
              else if e = rcurl then some ([(String.mk k.data, v)], r4)
              else none
        else none) = some ([(k, v)], rest)
    simp only [skipWs_cons_of_not_ws (by decide : wsChar colon = false)]
    rw [if_pos trivial,
      parseVal_round v f' sv (rcurl :: rest) hcv hsv (by omega) (numOk_rcurl _)]
    rfl
  | (k, v) :: p :: fs, f, rest => by
    intro _ hcl hcost
    have hcv : cleanB v = true ∧ cleanFieldsB (p :: fs) = true := by
      have h1 : cleanFieldsB ((k, v) :: p :: fs) =
          (cleanB v && cleanFieldsB (p :: fs)) := rfl
      rw [h1, Bool.and_eq_true] at hcl
      exact hcl
    have hcp : cleanB p.2 = true := by
      have h2 := hcv.2
      obtain ⟨k2, v2⟩ := p
      have h1 : cleanFieldsB ((k2, v2) :: fs) = (cleanB v2 && cleanFieldsB fs) := rfl
      rw [h1, Bool.and_eq_true] at h2
      exact h2.1
    obtain ⟨sv, hsv⟩ := strValC_some_of_clean hcv.1
    obtain ⟨sp, hsp⟩ := strValC_some_of_clean hcp
    obtain ⟨T, hT⟩ : ∃ T, strMembersC (p :: fs) = qmark :: T := by
      obtain ⟨k2, v2⟩ := p
      exact strMembersC_qhead k2 fs hsp
    have hMne : strMembersC (p :: fs) ≠ [] := by
      rw [hT]; simp
    have hcost2 : 1 + costV v + costMembers (p :: fs) ≤ f := by
      have h1 : costMembers ((k, v) :: p :: fs) =
          1 + costV v + costMembers (p :: fs) := rfl
      omega
    obtain ⟨f', rfl⟩ : ∃ f', f = f' + 1 := ⟨f - 1, by omega⟩
    rw [strMembersC_cons2 k (p :: fs) hsv hMne]
    have hform : (strQ k.data ++ colon :: sv ++ comma :: strMembersC (p :: fs)) ++
        rcurl :: rest =
        qmark :: (escChars k.data ++ qmark ::
          (colon :: (sv ++ comma :: (strMembersC (p :: fs) ++ rcurl :: rest)))) := by
      simp [strQ]
    rw [hform]
    have hd : ∀ cs : List Char, parseMembers (f' + 1) (qmark :: cs) =
        match parseStr cs with
        | none => none
        | some (kcs, r) =>
          match skipWs r with
          | [] => none
          | d :: r2 =>
            if d = colon then
              match parseVal f' r2 with
              | none => none
              | some (v, r3) =>
                match skipWs r3 with
                | [] => none
                | e :: r4 =>
                  if e = comma then
                    match parseMembers f' (skipWs r4) with
                    | none => none
                    | some (fs2, r5) => some ((String.mk kcs, v) :: fs2, r5)
                  else if e = rcurl then some ([(String.mk kcs, v)], r4)
                  else none
            else none := fun cs => rfl
    rw [hd, parseStr_round]
    show (match skipWs (colon :: (sv ++ comma ::
        (strMembersC (p :: fs) ++ rcurl :: rest))) with
      | [] => none
      | d :: r2 =>
        if d = colon then
          match parseVal f' r2 with
          | none => none
          | some (v, r3) =>
            match skipWs r3 with
            | [] => none
            | e :: r4 =>
              if e = comma then
                match parseMembers f' (skipWs r4) with
                | none => none
                | some (fs2, r5) => some ((String.mk k.data, v) :: fs2, r5)
              else if e = rcurl then some ([(String.mk k.data, v)], r4)
              else none
        else none) = some ((k, v) :: p :: fs, rest)
    simp only [skipWs_cons_of_not_ws (by decide : wsChar colon = false)]
    rw [if_pos trivial,
      parseVal_round v f' sv (comma :: (strMembersC (p :: fs) ++ rcurl :: rest))
        hcv.1 hsv (by omega) (numOk_comma _)]
    show (match skipWs (comma :: (strMembersC (p :: fs) ++ rcurl :: rest)) with
      | [] => none
      | e :: r4 =>
        if e = comma then
          match parseMembers f' (skipWs r4) with
          | none => none
          | some (fs2, r5) => some ((String.mk k.data, v) :: fs2, r5)
        else if e = rcurl then some ([(String.mk k.data, v)], r4)
        else none) = some ((k, v) :: p :: fs, rest)
    simp only [skipWs_cons_of_not_ws (by decide : wsChar comma = false)]
    rw [if_pos trivial]
    have hTr : strMembersC (p :: fs) ++ rcurl :: rest =
        qmark :: (T ++ rcurl :: rest) := by
      rw [hT]; rfl
    rw [hTr, skipWs_cons_of_not_ws (by decide : wsChar qmark = false), ← hTr]
    rw [parseMembers_round (p :: fs) f' rest (by simp) hcv.2 (by omega)]

end

/-! ### Fuel-cost bounds and the top-level round trip -/

theorem strValC_length_pos {v : JVal} {s : List Char}
    (h : strValC v = some s) : 1 ≤ s.length := by
  obtain ⟨c, cs, rfl, _, _⟩ := strValC_head_spec h
  simp

theorem serializableB_of_clean {v : JVal} (h : cleanB v = true) :
    serializableB v = true := by
  cases v <;> simp_all [cleanB, serializableB]

mutual

theorem costV_le : ∀ (v : JVal) (s : List Char), cleanB v = true →
    strValC v = some s → costV v + 1 ≤ 2 * s.length
  | JVal.null, s => by
    intro _ hs
    have hsd : s = "null".data := by simpa [strValC] using hs.symm
    subst hsd
    decide
  | JVal.bool true, s => by
    intro _ hs
    have hsd : s = "true".data := by simpa [strValC] using hs.symm
    subst hsd
    decide
  | JVal.bool false, s => by
    intro _ hs
    have hsd : s = "false".data := by simpa [strValC] using hs.symm
    subst hsd
    decide
  | JVal.num n, s => by
    intro _ hs
    have h1 : 1 ≤ s.length := strValC_length_pos hs
    have h2 : costV (JVal.num n) = 1 := rfl
    omega
  | JVal.str t, s => by
    intro _ hs
    have h1 : 1 ≤ s.length := strValC_length_pos hs
    have hsd : s = strQ t.data := by simpa [strValC] using hs.symm
    subst hsd
    have h2 : costV (JVal.str t) = 1 := rfl
    have h3 : (strQ t.data).length = (escChars t.data).length + 2 := by
      simp [strQ]
    omega
  | JVal.big n, s => by intro hc _; simp [cleanB] at hc
  | JVal.undef, s => by intro hc _; simp [cleanB] at hc
  | JVal.func, s => by intro hc _; simp [cleanB] at hc
  | JVal.sym, s => by intro hc _; simp [cleanB] at hc
  | JVal.arr [], s => by
    intro _ hs
    have hsd : s = lbrack :: strElemsC [] ++ [rbrack] := by
      simpa [strValC] using hs.symm
    subst hsd
    decide
  | JVal.arr (x :: xs), s => by
    intro hc hs
    have hsd : s = lbrack :: strElemsC (x :: xs) ++ [rbrack] := by
      simpa [strValC] using hs.symm
    subst hsd
    have hcl : cleanListB (x :: xs) = true := by simpa [cleanB] using hc
    have h1 := costElems_le (x :: xs) (by simp) hcl
    have h2 : costV (JVal.arr (x :: xs)) = 1 + costElems (x :: xs) := rfl
    have h3 : (lbrack :: strElemsC (x :: xs) ++ [rbrack]).length =
        (strElemsC (x :: xs)).length + 2 := by simp
    omega
  | JVal.obj [], s => by
    intro _ hs
    have hsd : s = lcurl :: strMembersC [] ++ [rcurl] := by
      simpa [strValC] using hs.symm
    subst hsd
    decide
  | JVal.obj ((k, v) :: fs), s => by
    intro hc hs
    have hsd : s = lcurl :: strMembersC ((k, v) :: fs) ++ [rcurl] := by
      simpa [strValC] using hs.symm
    subst hsd
    have hcf : cleanFieldsB ((k, v) :: fs) = true := by
      have h1 : cleanB (JVal.obj ((k, v) :: fs)) =
          (keysNodupB ((k, v) :: fs) && (cleanB v && cleanFieldsB fs)) := rfl
      rw [h1, Bool.and_eq_true, Bool.and_eq_true] at hc
      show (cleanB v && cleanFieldsB fs) = true
      rw [Bool.and_eq_true]
      exact hc.2
    have h1 := costMembers_le ((k, v) :: fs) (by simp) hcf
    have h2 : costV (JVal.obj ((k, v) :: fs)) =
        1 + costMembers ((k, v) :: fs) := rfl
    have h3 : (lcurl :: strMembersC ((k, v) :: fs) ++ [rcurl]).length =
        (strMembersC ((k, v) :: fs)).length + 2 := by simp
    omega

theorem costElems_le : ∀ (xs : List JVal), xs ≠ [] → cleanListB xs = true →
    costElems xs ≤ 2 * (strElemsC xs).length + 2
  | [] => by intro hne _; exact absurd rfl hne
  | [x] => by
    intro _ hcl
    have hcx : cleanB x = true := by simpa [cleanListB] using hcl
    obtain ⟨sx, hsx⟩ := strValC_some_of_clean hcx
    have h1 := costV_le x sx hcx hsx
    have h2 : costElems [x] = 1 + costV x + 1 := rfl
    rw [strElemsC_single hsx]
    omega
  | x :: y :: ys => by
    intro _ hcl
    have hcx : cleanB x = true ∧ cleanListB (y :: ys) = true := by
      simpa [cleanListB, Bool.and_eq_true] using hcl
    obtain ⟨sx, hsx⟩ := strValC_some_of_clean hcx.1
    have h1 := costV_le x sx hcx.1 hsx
    have h2 := costElems_le (y :: ys) (by simp) hcx.2
    have h3 : costElems (x :: y :: ys) = 1 + costV x + costElems (y :: ys) := rfl
    rw [strElemsC_cons2 y ys hsx]
    have h4 : (sx ++ comma :: strElemsC (y :: ys)).length =
        sx.length + 1 + (strElemsC (y :: ys)).length := by simp; omega
    omega

theorem costMembers_le : ∀ (fs : List (String × JVal)), fs ≠ [] →
    cleanFieldsB fs = true → costMembers fs ≤ 2 * (strMembersC fs).length + 2
  | [] => by intro hne _; exact absurd rfl hne
  | [(k, v)] => by
    intro _ hcf
    have hcv : cleanB v = true := by simpa [cleanFieldsB] using hcf
    obtain ⟨sv, hsv⟩ := strValC_some_of_clean hcv
    have h1 := costV_le v sv hcv hsv
    have h2 : costMembers [(k, v)] = 1 + costV v + 1 := rfl
    rw [strMembersC_single k hsv]
    have h3 : (strQ k.data ++ colon :: sv).length =
        (strQ k.data).length + 1 + sv.length := by simp; omega
    omega
  | (k, v) :: p :: fs => by
    intro _ hcf
    have hcv : cleanB v = true ∧ cleanFieldsB (p :: fs) = true := by
      have h1 : cleanFieldsB ((k, v) :: p :: fs) =
          (cleanB v && cleanFieldsB (p :: fs)) := rfl
      rw [h1, Bool.and_eq_true] at hcf
      exact hcf
    have hcp : cleanB p.2 = true := by
      have h2 := hcv.2
      obtain ⟨k2, v2⟩ := p
      have h1 : cleanFieldsB ((k2, v2) :: fs) = (cleanB v2 && cleanFieldsB fs) := rfl
      rw [h1, Bool.and_eq_true] at h2
      exact h2.1
    obtain ⟨sv, hsv⟩ := strValC_some_of_clean hcv.1
    obtain ⟨sp, hsp⟩ := strValC_some_of_clean hcp
    have hMne : strMembersC (p :: fs) ≠ [] := by
      obtain ⟨k2, v2⟩ := p
      obtain ⟨T, hT⟩ := strMembersC_qhead k2 fs hsp
      rw [hT]; simp
    have h1 := costV_le v sv hcv.1 hsv
    have h2 := costMembers_le (p :: fs) (by simp) hcv.2
    have h3 : costMembers ((k, v) :: p :: fs) =
        1 + costV v + costMembers (p :: fs) := rfl
    rw [strMembersC_cons2 k (p :: fs) hsv hMne]
    have h4 : (strQ k.data ++ colon :: sv ++ comma :: strMembersC (p :: fs)).length =
        (strQ k.data).length + 1 + sv.length + 1 +
          (strMembersC (p :: fs)).length := by simp; omega
    omega

end

theorem serializableB_false_strValC {v : JVal} (h : serializableB v = false) :
    strValC v = none := by
  cases v <;> simp_all [serializableB, strValC]

theorem strValC_some_of_serializable {v : JVal} (h : serializableB v = true) :
    ∃ s, strValC v = some s := by
  cases v with
  | undef => simp [serializableB] at h
  | func => simp [serializableB] at h
  | sym => simp [serializableB] at h
  | _ => exact ⟨_, rfl⟩

mutual

theorem strValC_cleanse : ∀ (v : JVal), serializableB v = true →
    strValC (cleanseV v) = strValC v
  | JVal.null => by intro _; rfl
  | JVal.bool b => by intro _; rfl
  | JVal.num n => by intro _; rfl
  | JVal.str t => by intro _; rfl
  | JVal.big n => by intro _; rfl
  | JVal.undef => by intro h; simp [serializableB] at h
  | JVal.func => by intro h; simp [serializableB] at h
  | JVal.sym => by intro h; simp [serializableB] at h
  | JVal.arr xs => by
    intro _
    show strValC (JVal.arr (cleanseList xs)) = _
    show some (lbrack :: strElemsC (cleanseList xs) ++ [rbrack]) = _
    rw [strElemsC_cleanse xs]
    rfl
  | JVal.obj fs => by
    intro _
    show strValC (JVal.obj (cleanseFields fs)) = _
    show some (lcurl :: strMembersC (cleanseFields fs) ++ [rcurl]) = _
    rw [strMembersC_cleanse fs]
    rfl

theorem strElemsC_cleanse : ∀ (xs : List JVal),
    strElemsC (cleanseList xs) = strElemsC xs
  | [] => rfl
  | x :: xs => by
    have hs : strValC (if serializableB x then cleanseV x else JVal.null) =
        some ((strValC x).getD "null".data) := by
      cases hser : serializableB x with
      | true =>
        rw [if_pos rfl, strValC_cleanse x hser]
        obtain ⟨sx, hsx⟩ := strValC_some_of_serializable hser
        rw [hsx]
        rfl
      | false =>
        rw [if_neg (by simp), serializableB_false_strValC hser]
        rfl
    show strElemsC ((if serializableB x then cleanseV x else JVal.null) ::
      cleanseList xs) = strElemsC (x :: xs)
    cases xs with
    | nil =>
      show strElemsC [(if serializableB x then cleanseV x else JVal.null)] =
        strElemsC [x]
      have h1 : ∀ (z : JVal), strElemsC [z] = (strValC z).getD "null".data :=
        fun z => rfl
      rw [h1, h1]
      have h2 := hs
      rw [h2]
      rfl
    | cons y ys =>
      have hclshape : cleanseList (y :: ys) =
          (if serializableB y then cleanseV y else JVal.null) ::
            cleanseList ys := rfl
      have h2 : ∀ (z : JVal) (a : JVal) (as : List JVal),
          strElemsC (z :: a :: as) =
            (strValC z).getD "null".data ++ comma :: strElemsC (a :: as) :=
        fun z a as => rfl
      rw [hclshape, h2, h2, ← hclshape, strElemsC_cleanse (y :: ys)]
      have h3 := hs
      rw [h3]
      rfl

theorem strMembersC_cleanse : ∀ (fs : List (String × JVal)),
    strMembersC (cleanseFields fs) = strMembersC fs
  | [] => rfl
  | (k, v) :: fs => by
    have hmem : ∀ (k2 : String) (v2 : JVal) (fs2 : List (String × JVal))
        (sv2 : List Char), strValC v2 = some sv2 →
        strMembersC ((k2, v2) :: fs2) =
          (if (strMembersC fs2).isEmpty then strQ k2.data ++ colon :: sv2
           else strQ k2.data ++ colon :: sv2 ++ comma :: strMembersC fs2) := by
      intro k2 v2 fs2 sv2 hv2
      show (match strValC v2 with
        | none => strMembersC fs2
        | some sv =>
          let rest := strMembersC fs2
          if rest.isEmpty then strQ k2.data ++ colon :: sv
          else strQ k2.data ++ colon :: sv ++ comma :: rest) = _
      rw [hv2]
    cases hser : serializableB v with
    | true =>
      obtain ⟨sv, hsv⟩ := strValC_some_of_serializable hser
      have hsv2 : strValC (cleanseV v) = some sv := by
        rw [strValC_cleanse v hser, hsv]
      have hcf : cleanseFields ((k, v) :: fs) =
          (k, cleanseV v) :: cleanseFields fs := by
        simp [cleanseFields, hser]
      rw [hcf, hmem k (cleanseV v) (cleanseFields fs) sv hsv2,
        hmem k v fs sv hsv, strMembersC_cleanse fs]
    | false =>
      have hcf : cleanseFields ((k, v) :: fs) = cleanseFields fs := by
        simp [cleanseFields, hser]
      have h2 : strMembersC ((k, v) :: fs) = strMembersC fs := by
        show (match strValC v with
          | none => strMembersC fs
          | some sv =>
            let rest := strMembersC fs
            if rest.isEmpty then strQ k.data ++ colon :: sv
            else strQ k.data ++ colon :: sv ++ comma :: rest) = _
        rw [serializableB_false_strValC hser]
      rw [hcf, h2, strMembersC_cleanse fs]

end

theorem cleanseFields_any_key (fs : List (String × JVal)) (k : String) :
    (cleanseFields fs).any (fun kv => kv.1 = k) = true →
      fs.any (fun kv => kv.1 = k) = true := by
  induction fs with
  | nil => intro h; simp [cleanseFields] at h
  | cons kv fs ih =>
    obtain ⟨k2, v2⟩ := kv
    intro h
    cases hser : serializableB v2 with
    | true =>
      have hcf : cleanseFields ((k2, v2) :: fs) =
          (k2, cleanseV v2) :: cleanseFields fs := by simp [cleanseFields, hser]
      rw [hcf] at h
      simp only [List.any_cons, Bool.or_eq_true] at h ⊢
      rcases h with h | h
      · exact Or.inl h
      · exact Or.inr (ih h)
    | false =>
      have hcf : cleanseFields ((k2, v2) :: fs) = cleanseFields fs := by
        simp [cleanseFields, hser]
      rw [hcf] at h
      simp only [List.any_cons, Bool.or_eq_true]
      exact Or.inr (ih h)

theorem keysNodupB_cleanseFields (fs : List (String × JVal))
    (h : keysNodupB fs = true) : keysNodupB (cleanseFields fs) = true := by
  induction fs with
  | nil => simpa [cleanseFields] using h
  | cons kv fs ih =>
    obtain ⟨k2, v2⟩ := kv
    rw [show keysNodupB ((k2, v2) :: fs) =
      (!(fs.any fun kv2 => kv2.1 = k2) && keysNodupB fs) from rfl,
      Bool.and_eq_true, Bool.not_eq_true'] at h
    cases hser : serializableB v2 with
    | true =>
      have hcf : cleanseFields ((k2, v2) :: fs) =
          (k2, cleanseV v2) :: cleanseFields fs := by simp [cleanseFields, hser]
      rw [hcf,
        show keysNodupB ((k2, cleanseV v2) :: cleanseFields fs) =
          (!((cleanseFields fs).any fun kv2 => kv2.1 = k2) &&
            keysNodupB (cleanseFields fs)) from rfl,
        Bool.and_eq_true, Bool.not_eq_true']
      refine ⟨?_, ih h.2⟩
      cases hany : (cleanseFields fs).any (fun kv2 => kv2.1 = k2) with
      | false => rfl
      | true =>
        rw [cleanseFields_any_key fs k2 hany] at h
        exact absurd h.1 (by simp)
    | false =>
      have hcf : cleanseFields ((k2, v2) :: fs) = cleanseFields fs := by
        simp [cleanseFields, hser]
      rw [hcf]
      exact ih h.2

mutual

theorem clean_cleanse : ∀ (v : JVal), wfKeysB v = true →
    serializableB v = true → cleanB (cleanseV v) = true
  | JVal.null => by intro _ _; rfl
  | JVal.bool b => by intro _ _; rfl
  | JVal.num n => by intro _ _; rfl
  | JVal.str t => by intro _ _; rfl
  | JVal.big n => by intro _ _; rfl
  | JVal.undef => by intro _ h; simp [serializableB] at h
  | JVal.func => by intro _ h; simp [serializableB] at h
  | JVal.sym => by intro _ h; simp [serializableB] at h
  | JVal.arr xs => by
    intro hwf _
    show cleanB (JVal.arr (cleanseList xs)) = true
    show cleanListB (cleanseList xs) = true
    exact cleanList_cleanse xs (by simpa [wfKeysB] using hwf)
  | JVal.obj fs => by
    intro hwf _
    have hw : keysNodupB fs = true ∧ wfKeysFieldsB fs = true := by
      have h1 : wfKeysB (JVal.obj fs) = (keysNodupB fs && wfKeysFieldsB fs) := rfl
      rw [h1, Bool.and_eq_true] at hwf
      exact hwf
    show cleanB (JVal.obj (cleanseFields fs)) = true
    show (keysNodupB (cleanseFields fs) && cleanFieldsB (cleanseFields fs)) = true
    rw [Bool.and_eq_true]
    exact ⟨keysNodupB_cleanseFields fs hw.1, cleanFields_cleanse fs hw.2⟩

theorem cleanList_cleanse : ∀ (xs : List JVal), wfKeysListB xs = true →
    cleanListB (cleanseList xs) = true
  | [] => by intro _; rfl
  | x :: xs => by
    intro hwf
    have hw : wfKeysB x = true ∧ wfKeysListB xs = true := by
      have h1 : wfKeysListB (x :: xs) = (wfKeysB x && wfKeysListB xs) := rfl
      rw [h1, Bool.and_eq_true] at hwf
      exact hwf
    show cleanListB ((if serializableB x then cleanseV x else JVal.null) ::
      cleanseList xs) = true
    show (cleanB (if serializableB x then cleanseV x else JVal.null) &&
      cleanListB (cleanseList xs)) = true
    rw [Bool.and_eq_true]
    refine ⟨?_, cleanList_cleanse xs hw.2⟩
    cases hser : serializableB x with
    | true => rw [if_pos rfl]; exact clean_cleanse x hw.1 hser
    | false => rw [if_neg (by simp)]; rfl

theorem cleanFields_cleanse : ∀ (fs : List (String × JVal)),
    wfKeysFieldsB fs = true → cleanFieldsB (cleanseFields fs) = true
  | [] => by intro _; rfl
  | (k, v) :: fs => by
    intro hwf
    have hw : wfKeysB v = true ∧ wfKeysFieldsB fs = true := by
      have h1 : wfKeysFieldsB ((k, v) :: fs) = (wfKeysB v && wfKeysFieldsB fs) := rfl
      rw [h1, Bool.and_eq_true] at hwf
      exact hwf
    cases hser : serializableB v with
    | true =>
      have hcf : cleanseFields ((k, v) :: fs) =
          (k, cleanseV v) :: cleanseFields fs := by simp [cleanseFields, hser]
      rw [hcf]
      show (cleanB (cleanseV v) && cleanFieldsB (cleanseFields fs)) = true
      rw [Bool.and_eq_true]
      exact ⟨clean_cleanse v hw.1 hser, cleanFields_cleanse fs hw.2⟩
    | false =>
      have hcf : cleanseFields ((k, v) :: fs) = cleanseFields fs := by
        simp [cleanseFields, hser]
      rw [hcf]
      exact cleanFields_cleanse fs hw.2

end

/-- The round trip of the emission pipeline: parsing the output of
`JSON.stringify(·, bigIntReplacer)` on a serializable, well-formed value
yields its round-trip normal form (the `SerializedView` invariant). -/
theorem parse_jsonStringify (v : JVal) (s : String)
    (hwf : wfKeysB v = true) (hser : serializableB v = true)
    (hs : jsonStringify v = some s) : parseJson s = some (cleanseV v) := by
  obtain ⟨sc, hsc, hmk⟩ : ∃ sc, strValC v = some sc ∧ s = String.mk sc := by
    rw [jsonStringify] at hs
    cases hv : strValC v with
    | none => rw [hv] at hs; simp at hs
    | some sc =>
      rw [hv] at hs
      simp at hs
      exact ⟨sc, rfl, hs.symm⟩
  subst hmk
  have hdata : (String.mk sc).data = sc := rfl
  have hsc2 : strValC (cleanseV v) = some sc := by
    rw [strValC_cleanse v hser, hsc]
  have hclean : cleanB (cleanseV v) = true := clean_cleanse v hwf hser
  have hcost := costV_le (cleanseV v) sc hclean hsc2
  rw [parseJson, hdata]
  have hnil : sc = sc ++ [] := by simp
  rw [show parseVal (2 * sc.length + 2) sc =
      parseVal (2 * sc.length + 2) (sc ++ []) by rw [← hnil]]
  rw [parseVal_round (cleanseV v) (2 * sc.length + 2) sc [] hclean hsc2
    (by omega) rfl]
  rfl

/-! ### The path redactor (models `fast-redact` with `serialize: false`)

`createLogger` builds `redact = fastRedact({ ...redactConfig, serialize:
false })` (src/src/logging.ts line 72).  Paths are dotted, wildcard-capable
patterns; they are modelled pre-split into segment lists (fast-redact splits
the configured strings on dots).  The censor is either a fixed replacement
value or a function of the matched value and its path; when no censor is
configured, fast-redact uses the fixed string `"[REDACTED]"`. -/

/-- A censor strategy: a fixed replacement value, or a function of the
matched value and its path. -/
inductive Censor where
  | fixed (v : JVal) : Censor
  | fn (f : JVal → List String → JVal) : Censor

/-- The `redact` configuration of `createLogger` (an
`ExtendedRedactOptions`): path patterns, optional censor, optional global
replace function. -/
structure RedactOptions where
  paths : List (List String)
  censor : Option Censor
  globalReplace : Option (String → String)

/-- Resolves the censor for one matched value. -/
def applyCensor : Censor → JVal → List String → JVal
  | Censor.fixed v, _, _ => v
  | Censor.fn f, v, p => f v p

/-- The effective censor: the configured one, or fast-redact's default
`"[REDACTED]"`. -/
def effCensor (o : RedactOptions) : Censor :=
  o.censor.getD (Censor.fixed (JVal.str "[REDACTED]"))

/-- Index lookup for array path segments: a segment addresses an array
element when it is the canonical decimal of an index (JavaScript
`o[seg]`). -/
def segIdx (seg : String) : Option Nat :=
  if seg.data ≠ [] ∧ (∀ c ∈ seg.data, isDigitB c = true) ∧
      (seg.data = ['0'] ∨ seg.data.head? ≠ some '0') then
    some (charsToNat seg.data)
  else none

/-- Applies one path pattern to a value, replacing every leaf reachable by
the pattern with the censor result; a `"*"` segment matches any key or
index at that depth.  Patterns that reference missing paths are no-ops, and
non-container values along the way are left unchanged, as in fast-redact. -/
def redactSegs (cen : Censor) : List String → List String → JVal → JVal
  | pre, [seg], JVal.obj fs =>
    JVal.obj (fs.map (fun kv =>
      if seg = "*" || seg = kv.1 then
        (kv.1, applyCensor cen kv.2 (pre ++ [kv.1]))
      else kv))
  | pre, [seg], JVal.arr xs =>
    if seg = "*" then
      JVal.arr (((List.range xs.length).zip xs).map (fun p =>
        applyCensor cen p.2 (pre ++ [natStr p.1])))
    else
      match segIdx seg with
      | some i =>
        match xs.get? i with
        | some x => JVal.arr (xs.set i (applyCensor cen x (pre ++ [seg])))
        | none => JVal.arr xs
      | none => JVal.arr xs
  | pre, seg :: rest, JVal.obj fs =>
    JVal.obj (fs.map (fun kv =>
      if seg = "*" || seg = kv.1 then
        (kv.1, redactSegs cen (pre ++ [kv.1]) rest kv.2)
      else kv))
  | pre, seg :: rest, JVal.arr xs =>
    if seg = "*" then
      JVal.arr (((List.range xs.length).zip xs).map (fun p =>
        redactSegs cen (pre ++ [natStr p.1]) rest p.2))
    else
      match segIdx seg with
      | some i =>
        match xs.get? i with
        | some x => JVal.arr (xs.set i (redactSegs cen (pre ++ [seg]) rest x))
        | none => JVal.arr xs
      | none => JVal.arr xs
  | _, _, v => v
  termination_by structural _ segs _ => segs

/-- The compiled redactor: applies every configured path pattern in order
(fast-redact with `serialize: false` returns the mutated input; the pure
model returns the new value). -/
def redact (o : RedactOptions) (v : JVal) : JVal :=
  o.paths.foldl (fun acc p => redactSegs (effCensor o) [] p acc) v

/-! ### The emission interceptor (pure value semantics)

Models the `_emit` proxy of src/src/logging.ts lines 77–102 at the level of
record values.  (`emitH` below gives the heap semantics of the same code,
for the aliasing properties.) -/

/-- Bunyan's core fields destructured away before redaction
(src/src/logging.ts line 86). -/
def coreKeys : List String := ["v", "level", "name", "hostname", "pid", "time", "src"]

/-- The `...rest` of the destructuring: all non-core fields, in insertion
order. -/
def restOf (r : List (String × JVal)) : List (String × JVal) :=
  r.filter (fun kv => !(coreKeys.contains kv.1))

/-- `Object.assign(logRecord, src)`: copies every own enumerable key of
`src` over the record (arrays contribute their index keys; primitives
contribute nothing). -/
def objAssign (r : List (String × JVal)) : JVal → List (String × JVal)
  | JVal.obj fs => fs.foldl (fun acc kv => setKeyG acc kv.1 kv.2) r
  | JVal.arr xs =>
    ((List.range xs.length).zip xs).foldl
      (fun acc p => setKeyG acc (natStr p.1) p.2) r
  | _ => r

/-- The `_emit` proxy body (src/src/logging.ts lines 77–102): splits off the
core fields, serializes the rest with `bigIntReplacer`, applies
`globalReplace` (or the identity when absent, line 82), parses the text
back, redacts the fresh copy, and assigns it over the record.  `none`
models an exception propagating out of `log(...)`: a serialization failure,
a parse failure of the replaced text, or fast-redact's strict-mode
`TypeError` on a primitive top-level value. -/
def emitRecord (o : RedactOptions) (r : List (String × JVal)) :
    Option (List (String × JVal)) :=
  match jsonStringify (JVal.obj (restOf r)) with
  | none => none
  | some s =>
    match parseJson ((o.globalReplace.getD id) s) with
    | none => none
    | some parsed =>
      match parsed with
      | JVal.obj _ => some (objAssign r (redact o parsed))
      | JVal.arr _ => some (objAssign r (redact o parsed))
      | _ => none

/-- First value bound to a key in a record (JavaScript property lookup; the
records built by the logger have unique keys). -/
def findVal (k : String) (r : List (String × JVal)) : Option JVal :=
  (r.find? (fun kv => kv.1 = k)).map (fun kv => kv.2)

/-! ### Detailed request serializers (src/src/logging.ts lines 179–303) -/

/-- JavaScript truthiness on modelled values (`0`, `""`, `null`,
`undefined`, `false` are falsy). -/
def truthy : JVal → Bool
  | JVal.null => false
  | JVal.undef => false
  | JVal.bool b => b
  | JVal.num n => !(n == 0)
  | JVal.str s => !(s == "")
  | JVal.big n => !(n == 0)
  | _ => true

/-- JavaScript property access `v.k` (yields `undefined` when missing or
when `v` is not an object; the sources only access properties of values
already guarded to be truthy). -/
def getProp (v : JVal) (k : String) : JVal :=
  match v with
  | JVal.obj fs => (findVal k fs).getD JVal.undef
  | _ => JVal.undef

/-- JavaScript `a || b` on values. -/
def jsOr (a b : JVal) : JVal := if truthy a then a else b

/-- JavaScript optional chaining `v?.k`. -/
def getPropChain (v : JVal) (k : String) : JVal :=
  match v with
  | JVal.null => JVal.undef
  | JVal.undef => JVal.undef
  | w => getProp w k

/-- The `req` serializer (src/src/logging.ts lines 237–252). -/
def serializeReq (req : JVal) : JVal :=
  if !truthy req || !truthy (getProp req "method") then req
  else
    JVal.obj
      [("method", getProp req "method"),
       ("url", jsOr (getProp req "originalUrl") (getProp req "url")),
       ("query", getProp req "query"),
       ("body", getProp req "body"),
       ("headers", getProp req "headers"),
       ("remoteAddress", getPropChain (getProp req "connection") "remoteAddress"),
       ("remotePort", getPropChain (getProp req "connection") "remotePort")]

/-- The response serializer (src/src/logging.ts lines 254–264); the `res`
serializer of the logger is `fun res => responseSerializer res false`. -/
def responseSerializer (res : JVal) (includeBody : Bool) : JVal :=
  if !truthy res || !truthy (getProp res "statusCode") then res
  else
    JVal.obj
      ([("statusCode", getProp res "statusCode"),
        ("header", getProp res "_header"),
        ("headers", getProp res "headers")] ++
        (if includeBody then [("body", getProp res "body")] else []))

/-- Heuristic for got-library errors (src/src/logging.ts lines 181–183). -/
def isGotError (e : JVal) : Bool :=
  truthy (getProp e "options") && truthy (getProp (getProp e "options") "url")

/-- Adapts got options to the request serializer's shape
(src/src/logging.ts lines 186–193). -/
def makeFakeRequestFromGotOptions (g : JVal) : JVal :=
  JVal.obj
    [("method", getProp g "method"),
     ("url", getProp g "url"),
     ("headers", getProp g "headers"),
     ("body", jsOr (getProp g "body") (getProp g "json"))]

/-- Heuristic for axios errors (src/src/logging.ts lines 197–199). -/
def isAxiosError (e : JVal) : Bool :=
  truthy (getProp e "isAxiosError") && truthy (getProp e "config")

/-- Adapts an axios config to the request serializer's shape
(src/src/logging.ts lines 202–219); a string body is parsed as JSON if
possible, otherwise kept. -/
def makeFakeRequestFromAxiosConfig (cfg : JVal) : JVal :=
  let body0 := getProp cfg "data"
  let body :=
    match body0 with
    | JVal.str s =>
      match parseJson s with
      | some b => b
      | none => JVal.str s
    | b => b
  JVal.obj
    [("method", getProp cfg "method"),
     ("url", getProp cfg "url"),
     ("headers", getProp cfg "headers"),
     ("body", body)]

/-- Serializes an axios response (src/src/logging.ts lines 222–231). -/
def serializeAxiosResponse (r : JVal) : JVal :=
  if !truthy r then r
  else
    JVal.obj
      [("statusCode", getProp r "status"),
       ("headers", getProp r "headers"),
       ("body", getProp r "data")]

/-- Modelled external collaborator: bunyan's `Logger.stdSerializers.err`,
which builds a plain view `{message, name, stack, code, signal}` of an
error (the stack text is the `stack` property; VError-style cause chains
are out of scope here and unused by the repository's tests). -/
def stdErrSerializer (e : JVal) : JVal :=
  JVal.obj
    [("message", getProp e "message"),
     ("name", getProp e "name"),
     ("stack", getProp e "stack"),
     ("code", getProp e "code"),
     ("signal", getProp e "signal")]

/-- Top-level fields of an object value. -/
def objFields : JVal → List (String × JVal)
  | JVal.obj fs => fs
  | _ => []

/-- The `err` serializer (src/src/logging.ts lines 268–300). -/
def serializeErr (e : JVal) : JVal :=
  if !truthy e || !truthy (getProp e "stack") then e
  else
    let result := stdErrSerializer e
    if isGotError e then
      JVal.obj (objFields result ++
        [("request", serializeReq (makeFakeRequestFromGotOptions (getProp e "options"))),
         ("response", responseSerializer (getProp e "response") true)])
    else if isAxiosError e then
      JVal.obj (objFields result ++
        [("request", serializeReq (makeFakeRequestFromAxiosConfig (getProp e "config"))),
         ("response", serializeAxiosResponse (getProp e "response"))])
    else result

/-! ### The logging middleware (src/src/logging.ts lines 110–177)

`createLoggingMiddleware` delegates the request life cycle to
`@google-cloud/logging`'s `makeMiddleware`, an external collaborator that
invokes the supplied `emitRequestLog` callback exactly once per finished
request.  The repository's own code is the callback body (lines 131–170),
which performs exactly one `logger.info(fields, 'Request finished')` call;
`emitRequestLog` below returns that single call. -/

/-- The environment variables consulted by `getGoogleServiceName` and the
middleware. -/
structure Env where
  gae : Option String
  k : Option String

/-- JavaScript truthiness of an optional environment string. -/
def strTruthy : Option String → Bool
  | some s => !(s == "")
  | none => false

/-- `getGoogleServiceName` (src/src/logging.ts lines 24–26):
`process.env.GAE_SERVICE || process.env.K_SERVICE`. -/
def getGoogleServiceName (env : Env) : Option String :=
  if strTruthy env.gae then env.gae else env.k

/-- `LOGGING_TRACE_KEY` of `@google-cloud/logging-bunyan`. -/
def loggingTraceKey : String := "logging.googleapis.com/trace"

/-- `LOGGING_SPAN_KEY` of `@google-cloud/logging-bunyan`. -/
def loggingSpanKey : String := "logging.googleapis.com/spanId"

/-- `LOGGING_SAMPLED_KEY` of `@google-cloud/logging-bunyan`. -/
def loggingSampledKey : String := "logging.googleapis.com/trace_sampled"

/-- One logger call: severity level, fields object, message. -/
structure LogCall where
  level : Nat
  fields : List (String × JVal)
  msg : String

/-- The `requestUrl` rewrite inside `emitRequestLog` (src/src/logging.ts
lines 155–160): prefix the Cloud Function name when the url is absolute and
not already prefixed. -/
def rewrittenUrl (cfn : Option String) (requestUrl : JVal) : JVal :=
  match cfn, requestUrl with
  | some c, JVal.str u =>
    if c ≠ "" ∧ u.startsWith "/" ∧ ¬ u.startsWith ("/" ++ c) then
      JVal.str ("/" ++ c ++ u)
    else JVal.str u
  | _, u => u

/-- The `emitRequestLog` callback of `createLoggingMiddleware`
(src/src/logging.ts lines 131–170): builds the fields of the single
`logger.info(..., 'Request finished')` call.  The conditional spread adds
the `httpRequest` summary and the trace-correlation keys only when a Google
environment is detected and `excludeHttpRequestField` is not `true`. -/
def emitRequestLog (env : Env) (excludeHttpRequestField : Option Bool)
    (req res : JVal) (httpRequest : List (String × JVal)) (trace : String)
    (span : Option String) (sampled : Option Bool) : LogCall :=
  let requestUrl := (findVal "requestUrl" httpRequest).getD JVal.undef
  let googleServiceName := getGoogleServiceName env
  let cloudFunctionName := env.k
  LogCall.mk 30
    ([("req", req), ("res", res)] ++
      (if strTruthy googleServiceName &&
          !(excludeHttpRequestField == some true) then
        [("httpRequest",
            JVal.obj (setKeyG httpRequest "requestUrl"
              (rewrittenUrl cloudFunctionName requestUrl))),
         (loggingTraceKey, JVal.str trace),
         (loggingSpanKey,
            match span with | some s => JVal.str s | none => JVal.undef),
         (loggingSampledKey,
            match sampled with | some b => JVal.bool b | none => JVal.undef)]
      else []))
    "Request finished"

/-! ### Heap semantics of the interceptor

The non-mutation claims are about aliasing, so the same `_emit` pipeline is
also modelled over an explicit heap: addresses are indices into a node
list, the record and the caller's objects live in the heap, `JSON.parse`
allocates fresh nodes, `fast-redact` mutates the parsed copy in place, and
`Object.assign` writes into the record's root node. -/

/-- A heap node: a scalar payload, an array of addresses, or an object of
named addresses.  (`leaf` is only ever built with scalar values.) -/
inductive HNode where
  | leaf (v : JVal) : HNode
  | harr (elems : List Nat) : HNode
  | hobj (fields : List (String × Nat)) : HNode

/-- A heap: node `a` is the list entry at index `a`; fresh nodes are
appended. -/
abbrev Heap := List HNode

/-- Writes one node. -/
def setNode (h : Heap) (a : Nat) (nd : HNode) : Heap := h.set a nd

mutual

/-- Serializes the graph below an address, as `JSON.stringify(·,
bigIntReplacer)` does: the outer `none` is a thrown error (a cycle
exhausts any fuel, matching the `TypeError` on circular structures), the
inner `none` is the `undefined` result for unserializable leaves. -/
def strValH : Nat → Heap → Nat → Option (Option (List Char))
  | 0, _, _ => none
  | f + 1, h, a =>
    match h.get? a with
    | none => none
    | some (HNode.leaf v) =>
      match v with
      | JVal.undef => some none
      | JVal.func => some none
      | JVal.sym => some none
      | JVal.arr _ => none
      | JVal.obj _ => none
      | w => some (strValC w)
    | some (HNode.harr es) =>
      match strElemsH f h es with
      | none => none
      | some cs => some (some (lbrack :: cs ++ [rbrack]))
    | some (HNode.hobj fs) =>
      match strMembersH f h fs with
      | none => none
      | some cs => some (some (lcurl :: cs ++ [rcurl]))

/-- Serializes array elements from the heap. -/
def strElemsH : Nat → Heap → List Nat → Option (List Char)
  | 0, _, _ => none
  | _ + 1, _, [] => some []
  | f + 1, h, [a] =>
    match strValH f h a with
    | none => none
    | some o => some (o.getD "null".data)
  | f + 1, h, a :: as =>
    match strValH f h a with
    | none => none
    | some o =>
      match strElemsH f h as with
      | none => none
      | some cs => some ((o.getD "null".data) ++ comma :: cs)

/-- Serializes object members from the heap, skipping `undefined`
members. -/
def strMembersH : Nat → Heap → List (String × Nat) → Option (List Char)
  | 0, _, _ => none
  | _ + 1, _, [] => some []
  | f + 1, h, (k, a) :: fs =>
    match strValH f h a with
    | none => none
    | some none => strMembersH f h fs
    | some (some sv) =>
      match strMembersH f h fs with
      | none => none
      | some rest =>
        some (if rest.isEmpty then strQ k.data ++ colon :: sv
          else strQ k.data ++ colon :: sv ++ comma :: rest)

end

mutual

/-- Reads the value of the graph below an address (used to pass the matched
value to a censor function). -/
def toValH : Nat → Heap → Nat → Option JVal
  | 0, _, _ => none
  | f + 1, h, a =>
    match h.get? a with
    | none => none
    | some (HNode.leaf v) => some v
    | some (HNode.harr es) => (toElemsH f h es).map JVal.arr
    | some (HNode.hobj fs) => (toFieldsH f h fs).map JVal.obj

/-- Reads array elements. -/
def toElemsH : Nat → Heap → List Nat → Option (List JVal)
  | 0, _, _ => none
  | _ + 1, _, [] => some []
  | f + 1, h, a :: as =>
    match toValH f h a with
    | none => none
    | some v => (toElemsH f h as).map (fun vs => v :: vs)

/-- Reads object members. -/
def toFieldsH : Nat → Heap → List (String × Nat) → Option (List (String × JVal))
  | 0, _, _ => none
  | _ + 1, _, [] => some []
  | f + 1, h, (k, a) :: fs =>
    match toValH f h a with
    | none => none
    | some v => (toFieldsH f h fs).map (fun vs => (k, v) :: vs)

end

mutual

/-- Allocates a fresh object graph for a parsed value, as `JSON.parse`
does: every new node is appended, so existing addresses are untouched. -/
def allocVal : Heap → JVal → Heap × Nat
  | h, JVal.arr xs =>
    let p := allocElems h xs
    (p.1 ++ [HNode.harr p.2], p.1.length)
  | h, JVal.obj fs =>
    let p := allocFields h fs
    (p.1 ++ [HNode.hobj p.2], p.1.length)
  | h, v => (h ++ [HNode.leaf v], h.length)

/-- Allocates array elements. -/
def allocElems : Heap → List JVal → Heap × List Nat
  | h, [] => (h, [])
  | h, x :: xs =>
    let p := allocVal h x
    let q := allocElems p.1 xs
    (q.1, p.2 :: q.2)

/-- Allocates object members. -/
def allocFields : Heap → List (String × JVal) → Heap × List (String × Nat)
  | h, [] => (h, [])
  | h, (k, v) :: fs =>
    let p := allocVal h v
    let q := allocFields p.1 fs
    (q.1, (k, p.2) :: q.2)

end

/-- Resolves the censor result for a matched address. -/
def censorValH (fuel : Nat) (cen : Censor) (h : Heap) (a : Nat)
    (path : List String) : JVal :=
  match cen with
  | Censor.fixed v => v
  | Censor.fn f => f ((toValH fuel h a).getD JVal.null) path

/-- In-place redaction of the matching members of an object node for a
terminal segment: each matched member gets a freshly allocated censor
value. -/
def redactLastFieldsH (fuel : Nat) (cen : Censor) (pre : List String)
    (seg : String) : Heap → List (String × Nat) → Heap × List (String × Nat)
  | h, [] => (h, [])
  | h, (k, p) :: fs =>
    if seg = "*" || seg = k then
      let cv := censorValH fuel cen h p (pre ++ [k])
      let q := allocVal h cv
      let r := redactLastFieldsH fuel cen pre seg q.1 fs
      (r.1, (k, q.2) :: r.2)
    else
      let r := redactLastFieldsH fuel cen pre seg h fs
      (r.1, (k, p) :: r.2)

/-- In-place redaction of all elements of an array node for a terminal
wildcard segment. -/
def redactLastElemsH (fuel : Nat) (cen : Censor) (pre : List String) :
    Nat → Heap → List Nat → Heap × List Nat
  | _, h, [] => (h, [])
  | i, h, p :: ps =>
    let cv := censorValH fuel cen h p (pre ++ [natStr i])
    let q := allocVal h cv
    let r := redactLastElemsH fuel cen pre (i + 1) q.1 ps
    (r.1, q.2 :: r.2)

mutual

/-- Applies one path pattern in place, starting at an address: the heap
counterpart of `redactSegs`. -/
def redactSegsH (fuel : Nat) (cen : Censor) :
    List String → List String → Heap → Nat → Heap
  | pre, [seg], h, a =>
    match h.get? a with
    | some (HNode.hobj fs) =>
      let r := redactLastFieldsH fuel cen pre seg h fs
      setNode r.1 a (HNode.hobj r.2)
    | some (HNode.harr es) =>
      if seg = "*" then
        let r := redactLastElemsH fuel cen pre 0 h es
        setNode r.1 a (HNode.harr r.2)
      else
        match segIdx seg with
        | some i =>
          match es.get? i with
          | some p =>
            let cv := censorValH fuel cen h p (pre ++ [seg])
            let q := allocVal h cv
            setNode q.1 a (HNode.harr (es.set i q.2))
          | none => h
        | none => h
    | _ => h
  | pre, seg :: rest, h, a =>
    match h.get? a with
    | some (HNode.hobj fs) => redactMidFieldsH fuel cen pre seg rest h fs
    | some (HNode.harr es) =>
      if seg = "*" then redactMidElemsH fuel cen pre rest 0 h es
      else
        match segIdx seg with
        | some i =>
          match es.get? i with
          | some p => redactSegsH fuel cen (pre ++ [seg]) rest h p
          | none => h
        | none => h
    | _ => h
  | _, [], h, _ => h
  termination_by _ segs _ _ => (segs.length, 1, 0)

/-- Walks matching members of an object node for a non-terminal segment. -/
def redactMidFieldsH (fuel : Nat) (cen : Censor) (pre : List String)
    (seg : String) (rest : List String) : Heap → List (String × Nat) → Heap
  | h, [] => h
  | h, (k, p) :: fs =>
    if seg = "*" || seg = k then
      redactMidFieldsH fuel cen pre seg rest
        (redactSegsH fuel cen (pre ++ [k]) rest h p) fs
    else redactMidFieldsH fuel cen pre seg rest h fs
  termination_by _ fs => (rest.length + 1, 0, fs.length)

/-- Walks all elements of an array node for a non-terminal wildcard
segment. -/
def redactMidElemsH (fuel : Nat) (cen : Censor) (pre : List String)
    (rest : List String) : Nat → Heap → List Nat → Heap
  | _, h, [] => h
  | i, h, p :: ps =>
    redactMidElemsH fuel cen pre rest (i + 1)
      (redactSegsH fuel cen (pre ++ [natStr i]) rest h p) ps
  termination_by _ _ ps => (rest.length + 1, 0, ps.length)

end

/-- The compiled redactor on the heap: applies every configured pattern in
order to the object at the given address, mutating it in place. -/
def redactH (fuel : Nat) (o : RedactOptions) (h : Heap) (a : Nat) : Heap :=
  o.paths.foldl (fun hh p => redactSegsH fuel (effCensor o) [] p hh a) h

/-- `Object.assign(logRecord, redacted)` on the heap: rewrites only the
record's root node, pointing its fields at the redacted copy. -/
def assignH (h : Heap) (root src : Nat) : Heap :=
  match h.get? root, h.get? src with
  | some (HNode.hobj rf), some (HNode.hobj sf) =>
    setNode h root
      (HNode.hobj (sf.foldl (fun acc kp => setKeyG acc kp.1 kp.2) rf))
  | some (HNode.hobj rf), some (HNode.harr es) =>
    setNode h root
      (HNode.hobj (((List.range es.length).zip es).foldl
        (fun acc p => setKeyG acc (natStr p.1) p.2) rf))
  | _, _ => h

/-- The `_emit` proxy body (src/src/logging.ts lines 77–102) over the heap:
destructure the core fields, serialize the rest (`bigIntReplacer`
included), apply `globalReplace` (identity when absent), `JSON.parse` the
text into freshly allocated nodes, redact that copy in place, and
`Object.assign` it over the record's root node.  `none` models an
exception propagating out of `log(...)` (serialization failure, parse
failure, or fast-redact's strict-mode error on a primitive). -/
def emitH (fuel : Nat) (o : RedactOptions) (h : Heap) (root : Nat) :
    Option Heap :=
  match h.get? root with
  | some (HNode.hobj fields) =>
    let rest := fields.filter (fun kv => !(coreKeys.contains kv.1))
    match strMembersH fuel h rest with
    | none => none
    | some body =>
      let s := String.mk (lcurl :: body ++ [rcurl])
      match parseJson ((o.globalReplace.getD id) s) with
      | none => none
      | some parsed =>
        match parsed with
        | JVal.obj _ =>
          let p := allocVal h parsed
          some (assignH (redactH fuel o p.1 p.2) root p.2)
        | JVal.arr _ =>
          let p := allocVal h parsed
          some (assignH (redactH fuel o p.1 p.2) root p.2)
        | _ => none
  | _ => none

/-! ### Frame lemmas: fresh allocation and in-place redaction never touch
pre-existing addresses other than the record root -/

/-- Every pointer of a node is at least `n`. -/
def ptrsGE (n : Nat) : HNode → Prop
  | HNode.leaf _ => True
  | HNode.harr es => ∀ p ∈ es, n ≤ p
  | HNode.hobj fs => ∀ kp ∈ fs, n ≤ kp.2

/-- All nodes at addresses `≥ n` point only at addresses `≥ n` (the fresh
region is closed). -/
def regionGE (n : Nat) (h : Heap) : Prop :=
  ∀ a nd, n ≤ a → h.get? a = some nd → ptrsGE n nd

/-- Extension: the heap only grew and all old addresses are unchanged. -/
def heapExt (h h2 : Heap) : Prop :=
  h.length ≤ h2.length ∧ ∀ a, a < h.length → h2.get? a = h.get? a

/-- Frame below `n`: the heap only grew and addresses `< n` are
unchanged. -/
def frameLT (n : Nat) (h h2 : Heap) : Prop :=
  h.length ≤ h2.length ∧ ∀ b, b < n → h2.get? b = h.get? b

theorem heapExt_refl (h : Heap) : heapExt h h := ⟨le_refl _, fun _ _ => rfl⟩

theorem heapExt_trans {h1 h2 h3 : Heap} (a : heapExt h1 h2)
    (b : heapExt h2 h3) : heapExt h1 h3 :=
  ⟨le_trans a.1 b.1, fun x hx => (b.2 x (lt_of_lt_of_le hx a.1)).trans (a.2 x hx)⟩

theorem heapExt_frameLT {n : Nat} {h h2 : Heap} (e : heapExt h h2)
    (hn : n ≤ h.length) : frameLT n h h2 :=
  ⟨e.1, fun b hb => e.2 b (lt_of_lt_of_le hb hn)⟩

theorem frameLT_refl (n : Nat) (h : Heap) : frameLT n h h :=
  ⟨le_refl _, fun _ _ => rfl⟩

theorem frameLT_trans {n : Nat} {h1 h2 h3 : Heap} (a : frameLT n h1 h2)
    (b : frameLT n h2 h3) : frameLT n h1 h3 :=
  ⟨le_trans a.1 b.1, fun x hx => (b.2 x hx).trans (a.2 x hx)⟩

theorem heapExt_append (h : Heap) (ext : Heap) : heapExt h (h ++ ext) := by
  refine ⟨by simp, fun a ha => ?_⟩
  rw [List.get?_append ha]

theorem get_append_one (h : Heap) (nd : HNode) :
    (h ++ [nd]).get? h.length = some nd := by
  rw [List.get?_append_right (le_refl _)]
  simp

theorem regionGE_trivial (h : Heap) : regionGE h.length h := by
  intro a nd ha hget
  have := List.get?_eq_none.mpr ha
  rw [this] at hget
  exact Option.noConfusion hget

theorem regionGE_append_one {n : Nat} {h : Heap} {nd : HNode}
    (hr : regionGE n h) (hp : ptrsGE n nd) : regionGE n (h ++ [nd]) := by
  intro a node ha hget
  by_cases hlt : a < h.length
  · rw [List.get?_append hlt] at hget
    exact hr a node ha hget
  · by_cases heq : a = h.length
    · subst heq
      rw [get_append_one] at hget
      cases hget
      exact hp
    · have hgt : h.length + 1 ≤ a := by omega
      have : (h ++ [nd]).get? a = none := by
        apply List.get?_eq_none.mpr
        simp
        omega
      rw [this] at hget
      exact Option.noConfusion hget

theorem setNode_length (h : Heap) (a : Nat) (nd : HNode) :
    (setNode h a nd).length = h.length := by
  simp [setNode]

theorem setNode_get_ne (h : Heap) (a b : Nat) (nd : HNode) (hne : b ≠ a) :
    (setNode h a nd).get? b = h.get? b := by
  simp only [setNode, List.get?_eq_getElem?]
  rw [List.getElem?_set_ne (fun he => hne he.symm)]

theorem setNode_get_self (h : Heap) (a : Nat) (nd : HNode)
    (ha : a < h.length) : (setNode h a nd).get? a = some nd := by
  simp only [setNode, List.get?_eq_getElem?]
  rw [List.getElem?_set_self]
  simp [ha]

theorem regionGE_setNode {n : Nat} {h : Heap} {a : Nat} {nd : HNode}
    (hr : regionGE n h) (hp : ptrsGE n nd) : regionGE n (setNode h a nd) := by
  intro b node hb hget
  by_cases heq : b = a
  · subst heq
    by_cases hlt : b < h.length
    · rw [setNode_get_self h b nd hlt] at hget
      cases hget
      exact hp
    · have : (setNode h b nd).get? b = none := by
        apply List.get?_eq_none.mpr
        rw [setNode_length]
        omega
      rw [this] at hget
      exact Option.noConfusion hget
  · rw [setNode_get_ne h a b nd heq] at hget
    exact hr b node hb hget

mutual

theorem allocVal_spec : ∀ (h : Heap) (v : JVal),
    heapExt h (allocVal h v).1 ∧
    h.length ≤ (allocVal h v).2 ∧ (allocVal h v).2 < (allocVal h v).1.length ∧
    (∀ n, n ≤ h.length → regionGE n h → regionGE n (allocVal h v).1)
  | h, JVal.null => by
    refine ⟨heapExt_append h _, by simp [allocVal], by simp [allocVal], ?_⟩
    intro n hn hr
    exact regionGE_append_one hr trivial
  | h, JVal.bool b => by
    refine ⟨heapExt_append h _, by simp [allocVal], by simp [allocVal], ?_⟩
    intro n hn hr
    exact regionGE_append_one hr trivial
  | h, JVal.num n => by
    refine ⟨heapExt_append h _, by simp [allocVal], by simp [allocVal], ?_⟩
    intro n hn hr
    exact regionGE_append_one hr trivial
  | h, JVal.str s => by
    refine ⟨heapExt_append h _, by simp [allocVal], by simp [allocVal], ?_⟩
    intro n hn hr
    exact regionGE_append_one hr trivial
  | h, JVal.big n => by
    refine ⟨heapExt_append h _, by simp [allocVal], by simp [allocVal], ?_⟩
    intro n hn hr
    exact regionGE_append_one hr trivial
  | h, JVal.undef => by
    refine ⟨heapExt_append h _, by simp [allocVal], by simp [allocVal], ?_⟩
    intro n hn hr
    exact regionGE_append_one hr trivial
  | h, JVal.func => by
    refine ⟨heapExt_append h _, by simp [allocVal], by simp [allocVal], ?_⟩
    intro n hn hr
    exact regionGE_append_one hr trivial
  | h, JVal.sym => by
    refine ⟨heapExt_append h _, by simp [allocVal], by simp [allocVal], ?_⟩
    intro n hn hr
    exact regionGE_append_one hr trivial
  | h, JVal.arr xs => by
    have ih := allocElems_spec h xs
    have hsh : allocVal h (JVal.arr xs) =
        ((allocElems h xs).1 ++ [HNode.harr (allocElems h xs).2],
          (allocElems h xs).1.length) := rfl
    rw [hsh]
    refine ⟨heapExt_trans ih.1 (heapExt_append _ _), ?_, ?_, ?_⟩
    · exact ih.1.1
    · simp
    · intro n hn hr
      refine regionGE_append_one (ih.2.2 n hn hr) ?_
      intro p hp
      exact le_trans hn (ih.2.1 p hp).1
  | h, JVal.obj fs => by
    have ih := allocFields_spec h fs
    have hsh : allocVal h (JVal.obj fs) =
        ((allocFields h fs).1 ++ [HNode.hobj (allocFields h fs).2],
          (allocFields h fs).1.length) := rfl
    rw [hsh]
    refine ⟨heapExt_trans ih.1 (heapExt_append _ _), ?_, ?_, ?_⟩
    · exact ih.1.1
    · simp
    · intro n hn hr
      refine regionGE_append_one (ih.2.2 n hn hr) ?_
      intro kp hkp
      exact le_trans hn (ih.2.1 kp hkp).1

theorem allocElems_spec : ∀ (h : Heap) (xs : List JVal),
    heapExt h (allocElems h xs).1 ∧
    (∀ p ∈ (allocElems h xs).2,
      h.length ≤ p ∧ p < (allocElems h xs).1.length) ∧
    (∀ n, n ≤ h.length → regionGE n h → regionGE n (allocElems h xs).1)
  | h, [] => by
    refine ⟨heapExt_refl h, ?_, fun n _ hr => hr⟩
    intro p hp
    simp [allocElems] at hp
  | h, x :: xs => by
    have ihv := allocVal_spec h x
    have ihe := allocElems_spec (allocVal h x).1 xs
    have hsh : allocElems h (x :: xs) =
        ((allocElems (allocVal h x).1 xs).1,
          (allocVal h x).2 :: (allocElems (allocVal h x).1 xs).2) := rfl
    rw [hsh]
    refine ⟨heapExt_trans ihv.1 ihe.1, ?_, ?_⟩
    · intro p hp
      simp only [List.mem_cons] at hp
      rcases hp with hp | hp
      · subst hp
        exact ⟨ihv.2.1, lt_of_lt_of_le ihv.2.2.1 ihe.1.1⟩
      · have := ihe.2.1 p hp
        exact ⟨le_trans ihv.1.1 this.1, this.2⟩
    · intro n hn hr
      exact ihe.2.2 n (le_trans hn ihv.1.1) (ihv.2.2.2 n hn hr)

theorem allocFields_spec : ∀ (h : Heap) (fs : List (String × JVal)),
    heapExt h (allocFields h fs).1 ∧
    (∀ kp ∈ (allocFields h fs).2,
      h.length ≤ kp.2 ∧ kp.2 < (allocFields h fs).1.length) ∧
    (∀ n, n ≤ h.length → regionGE n h → regionGE n (allocFields h fs).1)
  | h, [] => by
    refine ⟨heapExt_refl h, ?_, fun n _ hr => hr⟩
    intro kp hkp
    simp [allocFields] at hkp
  | h, (k, v) :: fs => by
    have ihv := allocVal_spec h v
    have ihe := allocFields_spec (allocVal h v).1 fs
    have hsh : allocFields h ((k, v) :: fs) =
        ((allocFields (allocVal h v).1 fs).1,
          (k, (allocVal h v).2) :: (allocFields (allocVal h v).1 fs).2) := rfl
    rw [hsh]
    refine ⟨heapExt_trans ihv.1 ihe.1, ?_, ?_⟩
    · intro kp hkp
      simp only [List.mem_cons] at hkp
      rcases hkp with hkp | hkp
      · subst hkp
        exact ⟨ihv.2.1, lt_of_lt_of_le ihv.2.2.1 ihe.1.1⟩
      · have := ihe.2.1 kp hkp
        exact ⟨le_trans ihv.1.1 this.1, this.2⟩
    · intro n hn hr
      exact ihe.2.2 n (le_trans hn ihv.1.1) (ihv.2.2.2 n hn hr)

end

theorem redactLastFieldsH_spec (fuel : Nat) (cen : Censor) (pre : List String)
    (seg : String) :
    ∀ (h : Heap) (fs : List (String × Nat)) (n : Nat), n ≤ h.length →
      regionGE n h → (∀ kp ∈ fs, n ≤ kp.2) →
      heapExt h (redactLastFieldsH fuel cen pre seg h fs).1 ∧
      regionGE n (redactLastFieldsH fuel cen pre seg h fs).1 ∧
      (∀ kp ∈ (redactLastFieldsH fuel cen pre seg h fs).2, n ≤ kp.2) := by
  intro h fs
  induction fs generalizing h with
  | nil =>
    intro n hn hr _
    exact ⟨heapExt_refl h, hr, by intro kp hkp; simp [redactLastFieldsH] at hkp⟩
  | cons kp0 fs ih =>
    obtain ⟨k, p⟩ := kp0
    intro n hn hr hfs
    show heapExt h (redactLastFieldsH fuel cen pre seg h ((k, p) :: fs)).1 ∧ _
    rw [redactLastFieldsH]
    split
    · have ha := allocVal_spec h (censorValH fuel cen h p (pre ++ [k]))
      have ihe := ih (allocVal h (censorValH fuel cen h p (pre ++ [k]))).1 n
        (le_trans hn ha.1.1) (ha.2.2.2 n hn hr)
        (fun kp2 hkp2 => hfs kp2 (by simp [hkp2]))
      refine ⟨heapExt_trans ha.1 ihe.1, ihe.2.1, ?_⟩
      intro kp2 hkp2
      simp only [List.mem_cons] at hkp2
      rcases hkp2 with hkp2 | hkp2
      · subst hkp2
        exact le_trans hn ha.2.1
      · exact ihe.2.2 kp2 hkp2
    · have ihe := ih h n hn hr (fun kp2 hkp2 => hfs kp2 (by simp [hkp2]))
      refine ⟨ihe.1, ihe.2.1, ?_⟩
      intro kp2 hkp2
      simp only [List.mem_cons] at hkp2
      rcases hkp2 with hkp2 | hkp2
      · subst hkp2
        exact hfs (k, p) (by simp)
      · exact ihe.2.2 kp2 hkp2

theorem redactLastElemsH_spec (fuel : Nat) (cen : Censor) (pre : List String) :
    ∀ (i : Nat) (h : Heap) (ps : List Nat) (n : Nat), n ≤ h.length →
      regionGE n h →
      heapExt h (redactLastElemsH fuel cen pre i h ps).1 ∧
      regionGE n (redactLastElemsH fuel cen pre i h ps).1 ∧
      (∀ p ∈ (redactLastElemsH fuel cen pre i h ps).2, n ≤ p) := by
  intro i h ps
  induction ps generalizing i h with
  | nil =>
    intro n hn hr
    exact ⟨heapExt_refl h, hr, by intro p hp; simp [redactLastElemsH] at hp⟩
  | cons p ps ih =>
    intro n hn hr
    show heapExt h (redactLastElemsH fuel cen pre i h (p :: ps)).1 ∧ _
    rw [redactLastElemsH]
    have ha := allocVal_spec h (censorValH fuel cen h p (pre ++ [natStr i]))
    have ihe := ih (i + 1) (allocVal h (censorValH fuel cen h p (pre ++ [natStr i]))).1 n
      (le_trans hn ha.1.1) (ha.2.2.2 n hn hr)
    refine ⟨heapExt_trans ha.1 ihe.1, ihe.2.1, ?_⟩
    intro p2 hp2
    simp only [List.mem_cons] at hp2
    rcases hp2 with hp2 | hp2
    · subst hp2
      exact le_trans hn ha.2.1
    · exact ihe.2.2 p2 hp2

theorem mem_set_ge {es : List Nat} {i x q : Nat} {n : Nat}
    (hes : ∀ p ∈ es, n ≤ p) (hq : n ≤ q) (hx : x ∈ es.set i q) : n ≤ x := by
  rcases List.mem_or_eq_of_mem_set hx with hx | hx
  · exact hes x hx
  · subst hx; exact hq

mutual

theorem redactSegsH_spec (fuel : Nat) (cen : Censor) :
    ∀ (pre segs : List String) (h : Heap) (a n : Nat),
      n ≤ h.length → regionGE n h → n ≤ a →
      frameLT n h (redactSegsH fuel cen pre segs h a) ∧
      regionGE n (redactSegsH fuel cen pre segs h a)
  | pre, [seg], h, a, n => by
    intro hn hr ha
    cases hget : h.get? a with
    | none =>
      simp only [redactSegsH, hget]
      exact ⟨frameLT_refl n h, hr⟩
    | some nd =>
      cases nd with
      | leaf v =>
        simp only [redactSegsH, hget]
        exact ⟨frameLT_refl n h, hr⟩
      | hobj fs =>
        have hfs : ∀ kp ∈ fs, n ≤ kp.2 := hr a (HNode.hobj fs) ha hget
        have hspec := redactLastFieldsH_spec fuel cen pre seg h fs n hn hr hfs
        simp only [redactSegsH, hget]
        constructor
        · refine ⟨?_, ?_⟩
          · rw [setNode_length]
            exact hspec.1.1
          · intro b hb
            rw [setNode_get_ne _ a b _ (by omega)]
            exact hspec.1.2 b (lt_of_lt_of_le hb hn)
        · exact regionGE_setNode hspec.2.1 hspec.2.2
      | harr es =>
        have hes : ∀ p ∈ es, n ≤ p := hr a (HNode.harr es) ha hget
        by_cases hseg : seg = "*"
        · have hspec := redactLastElemsH_spec fuel cen pre 0 h es n hn hr
          simp only [redactSegsH, hget, if_pos hseg]
          constructor
          · refine ⟨?_, ?_⟩
            · rw [setNode_length]
              exact hspec.1.1
            · intro b hb
              rw [setNode_get_ne _ a b _ (by omega)]
              exact hspec.1.2 b (lt_of_lt_of_le hb hn)
          · exact regionGE_setNode hspec.2.1 hspec.2.2
        · cases hidx : segIdx seg with
          | none =>
            simp only [redactSegsH, hget, if_neg hseg, hidx]
            exact ⟨frameLT_refl n h, hr⟩
          | some i =>
            cases hgeti : es.get? i with
            | none =>
              simp only [redactSegsH, hget, if_neg hseg, hidx, hgeti]
              exact ⟨frameLT_refl n h, hr⟩
            | some p =>
              have ha2 := allocVal_spec h (censorValH fuel cen h p (pre ++ [seg]))
              simp only [redactSegsH, hget, if_neg hseg, hidx, hgeti]
              constructor
              · refine ⟨?_, ?_⟩
                · rw [setNode_length]
                  exact ha2.1.1
                · intro b hb
                  rw [setNode_get_ne _ a b _ (by omega)]
                  exact ha2.1.2 b (lt_of_lt_of_le hb hn)
              · refine regionGE_setNode (ha2.2.2.2 n hn hr) ?_
                intro x hx
                exact mem_set_ge hes (le_trans hn ha2.2.1) hx
  | pre, seg :: seg2 :: rest, h, a, n => by
    intro hn hr ha
    cases hget : h.get? a with
    | none =>
      simp only [redactSegsH, hget]
      exact ⟨frameLT_refl n h, hr⟩
    | some nd =>
      cases nd with
      | leaf v =>
        simp only [redactSegsH, hget]
        exact ⟨frameLT_refl n h, hr⟩
      | hobj fs =>
        have hfs : ∀ kp ∈ fs, n ≤ kp.2 := hr a (HNode.hobj fs) ha hget
        simp only [redactSegsH, hget]
        exact redactMidFieldsH_spec fuel cen pre seg (seg2 :: rest) h fs n hn hr hfs
      | harr es =>
        have hes : ∀ p ∈ es, n ≤ p := hr a (HNode.harr es) ha hget
        by_cases hseg : seg = "*"
        · simp only [redactSegsH, hget, if_pos hseg]
          exact redactMidElemsH_spec fuel cen pre (seg2 :: rest) 0 h es n hn hr hes
        · cases hidx : segIdx seg with
          | none =>
            simp only [redactSegsH, hget, if_neg hseg, hidx]
            exact ⟨frameLT_refl n h, hr⟩
          | some i =>
            cases hgeti : es.get? i with
            | none =>
              simp only [redactSegsH, hget, if_neg hseg, hidx, hgeti]
              exact ⟨frameLT_refl n h, hr⟩
            | some p =>
              simp only [redactSegsH, hget, if_neg hseg, hidx, hgeti]
              exact redactSegsH_spec fuel cen (pre ++ [seg]) (seg2 :: rest) h p n
                hn hr (hes p (List.get?_mem hgeti))
  | _, [], h, a, n => by
    intro hn hr _
    rw [redactSegsH]
    exact ⟨frameLT_refl n h, hr⟩
  termination_by _ segs _ _ _ => (segs.length, 1, 0)

theorem redactMidFieldsH_spec (fuel : Nat) (cen : Censor) (pre : List String)
    (seg : String) (rest : List String) :
    ∀ (h : Heap) (fs : List (String × Nat)) (n : Nat), n ≤ h.length →
      regionGE n h → (∀ kp ∈ fs, n ≤ kp.2) →
      frameLT n h (redactMidFieldsH fuel cen pre seg rest h fs) ∧
      regionGE n (redactMidFieldsH fuel cen pre seg rest h fs)
  | h, [], n => by
    intro _ hr _
    rw [redactMidFieldsH]
    exact ⟨frameLT_refl n h, hr⟩
  | h, (k, p) :: fs, n => by
    intro hn hr hfs
    rw [redactMidFieldsH]
    split
    · have hsp := redactSegsH_spec fuel cen (pre ++ [k]) rest h p n hn hr
        (hfs (k, p) (by simp))
      have hrec := redactMidFieldsH_spec fuel cen pre seg rest
        (redactSegsH fuel cen (pre ++ [k]) rest h p) fs n
        (le_trans hn hsp.1.1) hsp.2
        (fun kp2 hkp2 => hfs kp2 (by simp [hkp2]))
      exact ⟨frameLT_trans hsp.1 hrec.1, hrec.2⟩
    · exact redactMidFieldsH_spec fuel cen pre seg rest h fs n hn hr
        (fun kp2 hkp2 => hfs kp2 (by simp [hkp2]))
  termination_by _ fs => (rest.length + 1, 0, fs.length)

theorem redactMidElemsH_spec (fuel : Nat) (cen : Censor) (pre : List String)
    (rest : List String) :
    ∀ (i : Nat) (h : Heap) (ps : List Nat) (n : Nat), n ≤ h.length →
      regionGE n h → (∀ p ∈ ps, n ≤ p) →
      frameLT n h (redactMidElemsH fuel cen pre rest i h ps) ∧
      regionGE n (redactMidElemsH fuel cen pre rest i h ps)
  | i, h, [], n => by
    intro _ hr _
    rw [redactMidElemsH]
    exact ⟨frameLT_refl n h, hr⟩
  | i, h, p :: ps, n => by
    intro hn hr hps
    rw [redactMidElemsH]
    have hsp := redactSegsH_spec fuel cen (pre ++ [natStr i]) rest h p n hn hr
      (hps p (by simp))
    have hrec := redactMidElemsH_spec fuel cen pre rest (i + 1)
      (redactSegsH fuel cen (pre ++ [natStr i]) rest h p) ps n
      (le_trans hn hsp.1.1) hsp.2
      (fun p2 hp2 => hps p2 (by simp [hp2]))
    exact ⟨frameLT_trans hsp.1 hrec.1, hrec.2⟩
  termination_by _ _ ps => (rest.length + 1, 0, ps.length)

end

theorem redactH_spec (fuel : Nat) (o : RedactOptions) :
    ∀ (paths : List (List String)) (h : Heap) (a n : Nat), n ≤ h.length →
      regionGE n h → n ≤ a →
      frameLT n h (paths.foldl
        (fun hh p => redactSegsH fuel (effCensor o) [] p hh a) h) ∧
      regionGE n (paths.foldl
        (fun hh p => redactSegsH fuel (effCensor o) [] p hh a) h) := by
  intro paths
  induction paths with
  | nil => intro h a n hn hr _; exact ⟨frameLT_refl n h, hr⟩
  | cons pat paths ih =>
    intro h a n hn hr ha
    have h1 := redactSegsH_spec fuel (effCensor o) [] pat h a n hn hr ha
    have h2 := ih (redactSegsH fuel (effCensor o) [] pat h a) a n
      (le_trans hn h1.1.1) h1.2 ha
    exact ⟨frameLT_trans h1.1 h2.1, h2.2⟩

theorem assignH_frame (h : Heap) (root src : Nat) :
    (assignH h root src).length = h.length ∧
    ∀ b, b ≠ root → (assignH h root src).get? b = h.get? b := by
  rw [assignH]
  split
  · exact ⟨setNode_length _ _ _, fun b hb => setNode_get_ne _ _ _ _ hb⟩
  · exact ⟨setNode_length _ _ _, fun b hb => setNode_get_ne _ _ _ _ hb⟩
  · exact ⟨rfl, fun _ _ => rfl⟩

theorem emitH_some_shape (fuel : Nat) (o : RedactOptions) (h : Heap)
    (root : Nat) (h' : Heap) (hemit : emitH fuel o h root = some h') :
    ∃ parsed, h' =
      assignH (redactH fuel o (allocVal h parsed).1 (allocVal h parsed).2)
        root (allocVal h parsed).2 := by
  cases hroot : h[root]? with
  | none => simp [emitH, hroot] at hemit
  | some nd =>
    cases nd with
    | leaf v => simp [emitH, hroot] at hemit
    | harr es => simp [emitH, hroot] at hemit
    | hobj fields =>
      simp only [emitH, List.get?_eq_getElem?, hroot] at hemit
      cases hbody : strMembersH fuel h
          (fields.filter fun kv => !(coreKeys.contains kv.1)) with
      | none =>
        simp only [hbody] at hemit
        exact Option.noConfusion hemit
      | some body =>
        simp only [hbody] at hemit
        cases hparse : parseJson ((o.globalReplace.getD id)
            (String.mk (lcurl :: body ++ [rcurl]))) with
        | none =>
          simp only [hparse] at hemit
          exact Option.noConfusion hemit
        | some parsed =>
          simp only [hparse] at hemit
          cases parsed with
          | obj fs =>
            refine ⟨JVal.obj fs, ?_⟩
            have := hemit
            simp only [Option.some.injEq] at this
            exact this.symm
          | arr xs =>
            refine ⟨JVal.arr xs, ?_⟩
            have := hemit
            simp only [Option.some.injEq] at this
            exact this.symm
          | null => exact Option.noConfusion hemit
          | bool b => exact Option.noConfusion hemit
          | num n => exact Option.noConfusion hemit
          | str s => exact Option.noConfusion hemit
          | big n => exact Option.noConfusion hemit
          | undef => exact Option.noConfusion hemit
          | func => exact Option.noConfusion hemit
          | sym => exact Option.noConfusion hemit

theorem emitH_frame (fuel : Nat) (o : RedactOptions) (h : Heap) (root : Nat)
    (h' : Heap) (hemit : emitH fuel o h root = some h') :
    (∀ b, b < h.length → b ≠ root → h'.get? b = h.get? b) ∧
    h.length ≤ h'.length := by
  obtain ⟨parsed, rfl⟩ := emitH_some_shape fuel o h root h' hemit
  have ha := allocVal_spec h parsed
  have hrr : regionGE h.length (allocVal h parsed).1 :=
    ha.2.2.2 h.length (le_refl _) (regionGE_trivial h)
  have hred := redactH_spec fuel o o.paths (allocVal h parsed).1
    (allocVal h parsed).2 h.length (le_trans (le_refl _) ha.1.1) hrr ha.2.1
  have hredH : redactH fuel o (allocVal h parsed).1 (allocVal h parsed).2 =
      o.paths.foldl (fun hh p => redactSegsH fuel (effCensor o) [] p hh
        (allocVal h parsed).2) (allocVal h parsed).1 := rfl
  have hasg := assignH_frame
    (redactH fuel o (allocVal h parsed).1 (allocVal h parsed).2) root
    (allocVal h parsed).2
  constructor
  · intro b hb hbr
    rw [hasg.2 b hbr, hredH]
    rw [hred.1.2 b hb]
    exact ha.1.2 b hb
  · rw [hasg.1, hredH]
    exact le_trans ha.1.1 hred.1.1

/-! ### Record-level lemmas: key lookup under `setKeyG`, `Object.assign`
folds, and the filtered remainder -/

theorem char_eq_of_toNat_eq {a b : Char} (h : a.toNat = b.toNat) : a = b := by
  have := Char.ofNat_toNat a
  rw [h, Char.ofNat_toNat b] at this
  exact this.symm

theorem find?_map_keypres {α β : Type} (f : (String × α) → (String × β))
    (hf : ∀ kv, (f kv).1 = kv.1) (fs : List (String × α)) (k : String) :
    (fs.map f).find? (fun kv => kv.1 = k) =
      (fs.find? (fun kv => kv.1 = k)).map f := by
  induction fs with
  | nil => rfl
  | cons kv fs ih =>
    by_cases h : kv.1 = k
    · rw [List.map_cons,
        List.find?_cons_of_pos _ (by simp [hf kv, h]),
        List.find?_cons_of_pos _ (by simp [h])]
      rfl
    · rw [List.map_cons,
        List.find?_cons_of_neg _ (by simp [hf kv, h]),
        List.find?_cons_of_neg _ (by simp [h]), ih]

theorem find?_append_left_none {α : Type} (p : α → Bool) (l1 l2 : List α)
    (h : l1.find? p = none) : (l1 ++ l2).find? p = l2.find? p := by
  rw [List.find?_append, h, Option.none_or]

theorem findVal_setKeyG_self (fs : List (String × JVal)) (k : String)
    (v : JVal) : findVal k (setKeyG fs k v) = some v := by
  rw [setKeyG]
  split
  next hany =>
    rw [findVal, find?_map_keypres _
      (fun kv => by by_cases h : kv.1 = k <;> simp [h])]
    have hsome : (fs.find? (fun kv => kv.1 = k)).isSome = true := by
      rw [List.find?_isSome]
      obtain ⟨kv, hmem, hkv⟩ := List.any_eq_true.mp hany
      exact ⟨kv, hmem, hkv⟩
    obtain ⟨kv, hkv⟩ := Option.isSome_iff_exists.mp hsome
    have hk : kv.1 = k := by simpa using List.find?_some hkv
    rw [hkv]
    simp [hk]
  next hany =>
    rw [findVal, find?_append_left_none]
    · simp [List.find?_cons_of_pos]
    · rw [List.find?_eq_none]
      intro kv hmem
      have := List.any_eq_false.mp (Bool.of_not_eq_true hany) kv hmem
      simpa using this

theorem findVal_setKeyG_ne (fs : List (String × JVal)) (k k2 : String)
    (v : JVal) (hne : k ≠ k2) :
    findVal k (setKeyG fs k2 v) = findVal k fs := by
  rw [setKeyG]
  split
  next hany =>
    rw [findVal, findVal, find?_map_keypres _
      (fun kv => by by_cases h : kv.1 = k2 <;> simp [h])]
    cases hf : fs.find? (fun kv => kv.1 = k) with
    | none => rfl
    | some kv =>
      have hk : kv.1 = k := by simpa using List.find?_some hf
      have : (if kv.1 = k2 then (k2, v) else kv) = kv := by
        rw [if_neg]
        rw [hk]
        exact hne
      simp [this]
  next hany =>
    rw [findVal, findVal, List.find?_append]
    have h2 : List.find? (fun kv => kv.1 = k) [(k2, v)] = none := by
      rw [List.find?_eq_none]
      intro kv hmem
      simp at hmem
      intro hkv
      rw [hmem] at hkv
      simp at hkv
      exact hne hkv.symm
    rw [h2]
    cases fs.find? (fun kv => kv.1 = k) <;> rfl

/-- A fold of `setKeyG` writes over keys drawn from `g`; keys outside that
set keep their binding. -/
theorem findVal_foldl_setKeyG_absent {β : Type} (g : β → String)
    (gv : β → JVal) (l : List β) (k : String)
    (hk : ∀ b ∈ l, g b ≠ k) (r : List (String × JVal)) :
    findVal k (l.foldl (fun acc b => setKeyG acc (g b) (gv b)) r) =
      findVal k r := by
  induction l generalizing r with
  | nil => rfl
  | cons b l ih =>
    rw [List.foldl_cons, ih (fun b2 h2 => hk b2 (List.mem_cons_of_mem _ h2)),
      findVal_setKeyG_ne _ _ _ _ (fun h => hk b (List.mem_cons_self _ _) h.symm)]

/-- A fold of `setKeyG` over a duplicate-free field list makes each of its
keys bound to its value there. -/
theorem findVal_foldl_setKeyG_present (fs : List (String × JVal)) (k : String)
    (v : JVal) (hfind : findVal k fs = some v) (hnodup : keysNodupB fs = true)
    (r : List (String × JVal)) :
    findVal k (fs.foldl (fun acc kv => setKeyG acc kv.1 kv.2) r) = some v := by
  induction fs generalizing r with
  | nil => exact absurd hfind (by simp [findVal])
  | cons kv fs ih =>
    rw [keysNodupB] at hnodup
    have hany : fs.any (fun kv2 => kv2.1 = kv.1) = false := by
      cases h2 : fs.any (fun kv2 => kv2.1 = kv.1) <;>
        simp [h2] at hnodup ⊢
    have hnd2 : keysNodupB fs = true := by
      cases h2 : keysNodupB fs <;> simp [h2] at hnodup ⊢
    by_cases hk : kv.1 = k
    · have hv : kv.2 = v := by
        rw [findVal, List.find?_cons_of_pos _ (by simp [hk])] at hfind
        simpa using hfind
      rw [List.foldl_cons,
        findVal_foldl_setKeyG_absent (fun kv2 : String × JVal => kv2.1)
          (fun kv2 => kv2.2) fs k
          (fun b hb heq => by
            have hne2 := List.any_eq_false.mp hany b hb
            simp only [decide_eq_true_eq] at hne2
            exact hne2 (heq.trans hk.symm)),
        hk, findVal_setKeyG_self, hv]
    · rw [findVal, List.find?_cons_of_neg _ (by simp [hk])] at hfind
      rw [List.foldl_cons, ih hfind hnd2]

/-- The top-level own enumerable keys `Object.assign` copies from a value. -/
def topKeys : JVal → List String
  | JVal.obj fs => fs.map (fun kv => kv.1)
  | JVal.arr xs => (List.range xs.length).map natStr
  | _ => []

theorem findVal_objAssign_not_mem (r : List (String × JVal)) (v : JVal)
    (k : String) (hk : ¬ k ∈ topKeys v) :
    findVal k (objAssign r v) = findVal k r := by
  cases v with
  | obj fs =>
    exact findVal_foldl_setKeyG_absent (fun kv : String × JVal => kv.1)
      (fun kv => kv.2) fs k
      (fun b hb hbk => hk (by rw [topKeys]; exact hbk ▸ List.mem_map_of_mem _ hb)) r
  | arr xs =>
    refine findVal_foldl_setKeyG_absent (fun p : Nat × JVal => natStr p.1)
      (fun p => p.2) ((List.range xs.length).zip xs) k (fun b hb hbk => hk ?_) r
    rw [topKeys]
    have hmem : b.1 ∈ List.range xs.length :=
      (List.of_mem_zip (a := b.1) (b := b.2) hb).1
    exact hbk ▸ List.mem_map_of_mem _ hmem
  | null => rfl
  | bool b => rfl
  | num n => rfl
  | str s => rfl
  | big n => rfl
  | undef => rfl
  | func => rfl
  | sym => rfl

theorem findVal_objAssign_obj_present (r fs : List (String × JVal))
    (k : String) (v : JVal) (hfind : findVal k fs = some v)
    (hnodup : keysNodupB fs = true) :
    findVal k (objAssign r (JVal.obj fs)) = some v :=
  findVal_foldl_setKeyG_present fs k v hfind hnodup r

theorem findVal_restOf (r : List (String × JVal)) (k : String)
    (hk : coreKeys.contains k = false) :
    findVal k (restOf r) = findVal k r := by
  induction r with
  | nil => rfl
  | cons kv r ih =>
    simp only [restOf, findVal] at ih ⊢
    rw [List.filter_cons]
    cases hc : coreKeys.contains kv.1 with
    | true =>
      rw [if_neg (by simp [hc])]
      have hne : ¬(kv.1 = k) := by
        intro h
        rw [h, hk] at hc
        exact Bool.noConfusion hc
      rw [List.find?_cons_of_neg _ (by simp [hne]), ih]
    | false =>
      rw [if_pos (by simp [hc])]
      by_cases hkk : kv.1 = k
      · rw [List.find?_cons_of_pos _ (by simp [hkk]),
          List.find?_cons_of_pos _ (by simp [hkk])]
      · rw [List.find?_cons_of_neg _ (by simp [hkk]),
          List.find?_cons_of_neg _ (by simp [hkk]), ih]

theorem restOf_not_core (r : List (String × JVal)) (kv : String × JVal)
    (h : kv ∈ restOf r) : coreKeys.contains kv.1 = false := by
  have := List.of_mem_filter h
  simpa using this

theorem any_key_eq (fs gs : List (String × JVal)) (k : String)
    (h : fs.map (fun kv => kv.1) = gs.map (fun kv => kv.1)) :
    fs.any (fun kv => kv.1 = k) = gs.any (fun kv => kv.1 = k) := by
  induction fs generalizing gs with
  | nil =>
    cases gs with
    | nil => rfl
    | cons kv gs => exact absurd h (by simp)
  | cons kv fs ih =>
    cases gs with
    | nil => exact absurd h (by simp)
    | cons kv2 gs =>
      simp only [List.map_cons, List.cons.injEq] at h
      simp only [List.any_cons, ih gs h.2, h.1]

theorem keysNodupB_of_keys_eq (fs gs : List (String × JVal))
    (h : fs.map (fun kv => kv.1) = gs.map (fun kv => kv.1)) :
    keysNodupB fs = keysNodupB gs := by
  induction fs generalizing gs with
  | nil =>
    cases gs with
    | nil => rfl
    | cons kv gs => exact absurd h (by simp)
  | cons kv fs ih =>
    cases gs with
    | nil => exact absurd h (by simp)
    | cons kv2 gs =>
      obtain ⟨k1, v1⟩ := kv
      obtain ⟨k2, v2⟩ := kv2
      simp only [List.map_cons, List.cons.injEq] at h
      rw [keysNodupB, keysNodupB, ih gs h.2, any_key_eq fs gs k1 h.2, h.1]

theorem map_setfn_keys (fs : List (String × JVal)) (k : String) (v : JVal) :
    (fs.map (fun kv => if kv.1 = k then (k, v) else kv)).map
        (fun kv => kv.1) =
      fs.map (fun kv => kv.1) := by
  rw [List.map_map]
  exact List.map_congr_left (fun kv _ => by by_cases hk : kv.1 = k <;> simp [hk])

theorem keysNodupB_append_one (fs : List (String × JVal)) (k : String)
    (v : JVal) (hnd : keysNodupB fs = true)
    (hany : fs.any (fun kv => kv.1 = k) = false) :
    keysNodupB (fs ++ [(k, v)]) = true := by
  induction fs with
  | nil => rfl
  | cons kv fs ih =>
    obtain ⟨k1, v1⟩ := kv
    simp only [keysNodupB, Bool.and_eq_true, Bool.not_eq_true'] at hnd
    simp only [List.any_cons, Bool.or_eq_false_iff, decide_eq_false_iff_not] at hany
    simp only [List.cons_append, keysNodupB, Bool.and_eq_true,
      Bool.not_eq_true']
    refine ⟨?_, ih hnd.2 (by simpa using hany.2)⟩
    have h3 : (fs ++ [(k, v)]).any (fun kv => kv.1 = k1) = false := by
      rw [List.any_append, hnd.1]
      simp only [List.any_cons, List.any_nil, Bool.or_false, Bool.false_or]
      simpa using fun h => hany.1 h.symm
    simpa using h3

theorem keysNodupB_setKeyG (fs : List (String × JVal)) (k : String)
    (v : JVal) (h : keysNodupB fs = true) :
    keysNodupB (setKeyG fs k v) = true := by
  rw [setKeyG]
  split
  next hany =>
    rw [keysNodupB_of_keys_eq _ fs (map_setfn_keys fs k v)]
    exact h
  next hany =>
    refine keysNodupB_append_one fs k v h ?_
    revert hany
    cases fs.any (fun kv => kv.1 = k) <;> simp

theorem keysNodupB_foldl_setKeyG (raw : List (String × JVal)) :
    ∀ acc, keysNodupB acc = true →
      keysNodupB (raw.foldl (fun acc kv => setKeyG acc kv.1 kv.2) acc) = true := by
  induction raw with
  | nil => exact fun acc h => h
  | cons kv raw ih => exact fun acc h => ih _ (keysNodupB_setKeyG _ _ _ h)

theorem keysNodupB_collapseFields (raw : List (String × JVal)) :
    keysNodupB (collapseFields raw) = true :=
  keysNodupB_foldl_setKeyG raw [] rfl

/-! ### Path addressing: concrete addresses, pattern matching, and the
redaction of a matched leaf -/

/-- Structured lookup along a concrete address, with fast-redact's
addressing: object keys by name, array elements by canonical decimal
index. -/
def lookupPath : List String → JVal → Option JVal
  | [], v => some v
  | seg :: rest, JVal.obj fs =>
    match findVal seg fs with
    | some v => lookupPath rest v
    | none => none
  | seg :: rest, JVal.arr xs =>
    match segIdx seg with
    | some i =>
      match xs.get? i with
      | some x => lookupPath rest x
      | none => none
    | none => none
  | _, _ => none

/-- One pattern segment against one address segment: a literal match or the
`"*"` wildcard. -/
def matchSeg (pat seg : String) : Bool := pat = "*" || pat = seg

/-- A whole path pattern against a concrete address (same length,
segmentwise `matchSeg`). -/
def matchAddr : List String → List String → Bool
  | [], [] => true
  | pat :: ps, seg :: ss => matchSeg pat seg && matchAddr ps ss
  | _, _ => false

theorem redactSegs_nil (cen : Censor) (pre : List String) (v : JVal) :
    redactSegs cen pre [] v = v := by
  cases v <;> (rw [redactSegs] <;> simp)

theorem redactSegs_obj_one (cen : Censor) (pre : List String) (seg : String)
    (fs : List (String × JVal)) :
    redactSegs cen pre [seg] (JVal.obj fs) =
      JVal.obj (fs.map (fun kv =>
        if seg = "*" || seg = kv.1 then
          (kv.1, applyCensor cen kv.2 (pre ++ [kv.1]))
        else kv)) := by
  rw [redactSegs]

theorem redactSegs_obj_cons (cen : Censor) (pre : List String)
    (seg seg2 : String) (rest : List String) (fs : List (String × JVal)) :
    redactSegs cen pre (seg :: seg2 :: rest) (JVal.obj fs) =
      JVal.obj (fs.map (fun kv =>
        if seg = "*" || seg = kv.1 then
          (kv.1, redactSegs cen (pre ++ [kv.1]) (seg2 :: rest) kv.2)
        else kv)) := by
  rw [redactSegs]
  simp

theorem redactSegs_arr_one (cen : Censor) (pre : List String) (seg : String)
    (xs : List JVal) :
    redactSegs cen pre [seg] (JVal.arr xs) =
      (if seg = "*" then
        JVal.arr (((List.range xs.length).zip xs).map (fun p =>
          applyCensor cen p.2 (pre ++ [natStr p.1])))
      else
        match segIdx seg with
        | some i =>
          match xs.get? i with
          | some x => JVal.arr (xs.set i (applyCensor cen x (pre ++ [seg])))
          | none => JVal.arr xs
        | none => JVal.arr xs) := by
  rw [redactSegs]

theorem redactSegs_arr_cons (cen : Censor) (pre : List String)
    (seg seg2 : String) (rest : List String) (xs : List JVal) :
    redactSegs cen pre (seg :: seg2 :: rest) (JVal.arr xs) =
      (if seg = "*" then
        JVal.arr (((List.range xs.length).zip xs).map (fun p =>
          redactSegs cen (pre ++ [natStr p.1]) (seg2 :: rest) p.2))
      else
        match segIdx seg with
        | some i =>
          match xs.get? i with
          | some x =>
            JVal.arr (xs.set i (redactSegs cen (pre ++ [seg]) (seg2 :: rest) x))
          | none => JVal.arr xs
        | none => JVal.arr xs) := by
  rw [redactSegs]
  simp

/-! ### Canonical decimal indices round-trip through `natStr` -/

theorem digitChar_inv {c : Char} (h : isDigitB c = true) :
    digitChar (c.toNat - 48) = c := by
  have h2 := isDigitB_iff.mp h
  apply char_eq_of_toNat_eq
  rw [digitChar_toNat (by omega)]
  omega

theorem foldl_digits_pos (cs : List Char) :
    ∀ a : Nat, 1 ≤ a →
      1 ≤ cs.foldl (fun a c => 10 * a + (c.toNat - 48)) a := by
  induction cs with
  | nil => exact fun a h => h
  | cons c cs ih =>
    intro a h
    show 1 ≤ cs.foldl _ (10 * a + (c.toNat - 48))
    exact ih (10 * a + (c.toNat - 48)) (by omega)

theorem charsToNat_head_pos {d : Char} (ds : List Char)
    (hd : isDigitB d = true) (hne : d ≠ '0') : 1 ≤ charsToNat (d :: ds) := by
  have h2 := isDigitB_iff.mp hd
  have h3 : d.toNat ≠ 48 := by
    intro h
    exact hne (char_eq_of_toNat_eq (by rw [h]; rfl))
  show 1 ≤ List.foldl _ (10 * 0 + (d.toNat - 48)) ds
  exact foldl_digits_pos ds _ (by omega)

theorem natChars_charsToNat (cs : List Char) :
    cs ≠ [] → (∀ c ∈ cs, isDigitB c = true) →
    (cs = ['0'] ∨ cs.head? ≠ some '0') → natChars (charsToNat cs) = cs := by
  induction cs using List.reverseRecOn with
  | nil => exact fun h => absurd rfl h
  | append_singleton ds c ih =>
    intro _ hdig hcanon
    by_cases hds : ds = []
    · subst hds
      have hc : isDigitB c = true := hdig c (by simp)
      have h9 : c.toNat - 48 < 10 := by
        have := isDigitB_iff.mp hc
        omega
      have h1 : charsToNat [c] = c.toNat - 48 := by
        show 10 * 0 + (c.toNat - 48) = _
        omega
      show natChars (charsToNat [c]) = [c]
      rw [h1, natChars, dif_pos h9, digitChar_inv hc]
    · obtain ⟨d, ds', hdd⟩ := List.exists_cons_of_ne_nil hds
      have hd0 : ¬(d = '0') := by
        intro h0
        rcases hcanon with h | h
        · have : ds = [] := by
            cases ds with
            | nil => rfl
            | cons x l =>
              simp only [List.cons_append] at h
              have := congrArg List.length h
              simp at this
          exact hds this
        · rw [List.head?_append, hdd] at h
          rw [h0] at h
          exact h rfl
      have hm : 1 ≤ charsToNat ds := by
        rw [hdd]
        exact charsToNat_head_pos ds' (hdig d (by simp [hdd])) hd0
      have hck : c.toNat - 48 < 10 := by
        have := isDigitB_iff.mp (hdig c (by simp))
        omega
      have hsplit : charsToNat (ds ++ [c]) =
          10 * charsToNat ds + (c.toNat - 48) := by
        show List.foldl _ 0 (ds ++ [c]) = _
        rw [List.foldl_append]
        rfl
      have hge : ¬(charsToNat (ds ++ [c]) < 10) := by
        rw [hsplit]
        omega
      have hdiv : charsToNat (ds ++ [c]) / 10 = charsToNat ds := by
        rw [hsplit]
        omega
      have hmod : charsToNat (ds ++ [c]) % 10 = c.toNat - 48 := by
        rw [hsplit]
        omega
      rw [natChars, dif_neg hge, hdiv, hmod]
      rw [digitChar_inv (hdig c (by simp))]
      rw [ih hds (fun x hx => hdig x (by simp [hx]))
        (Or.inr (by rw [hdd]; intro h2; exact hd0 (by simpa using h2)))]

theorem segIdx_natStr {seg : String} {i : Nat} (h : segIdx seg = some i) :
    natStr i = seg := by
  rw [segIdx] at h
  split at h
  next hcond =>
    obtain ⟨hne, hdig, hcanon⟩ := hcond
    have hi : i = charsToNat seg.data := by
      injection h with h2
      exact h2.symm
    rw [natStr, hi, natChars_charsToNat seg.data hne hdig hcanon]
  next hcond => exact Option.noConfusion h

theorem zipRange_getElem {α : Type} (xs : List α) (i : Nat) :
    ((List.range xs.length).zip xs)[i]? = xs[i]?.map (fun x => (i, x)) := by
  rw [← List.enum_eq_zip_range, List.getElem?_enum]

/-- fast-redact's guarantee on the parsed copy: a value reachable by an
address that a path pattern matches is replaced by the censor result. -/
theorem redactSegs_lookup (cen : Censor) :
    ∀ (segs : List String), segs ≠ [] →
      ∀ (addr pre : List String) (v leaf : JVal),
        matchAddr segs addr = true → lookupPath addr v = some leaf →
        lookupPath addr (redactSegs cen pre segs v) =
          some (applyCensor cen leaf (pre ++ addr)) := by
  intro segs
  induction segs with
  | nil => exact fun h => absurd rfl h
  | cons seg rest ih =>
    intro _ addr pre v leaf hmatch hleaf
    cases addr with
    | nil => exact absurd hmatch (by simp [matchAddr])
    | cons a as =>
      simp only [matchAddr, Bool.and_eq_true] at hmatch
      obtain ⟨hseg, hrest⟩ := hmatch
      rw [matchSeg] at hseg
      cases rest with
      | nil =>
        cases as with
        | cons a2 as2 => exact absurd hrest (by simp [matchAddr])
        | nil =>
          cases v
          case obj fs =>
            rw [redactSegs_obj_one]
            simp only [lookupPath] at hleaf ⊢
            cases hfind : fs.find? (fun kv => kv.1 = a) with
            | none =>
              rw [findVal, hfind] at hleaf
              simp at hleaf
            | some kv =>
              have hk : kv.1 = a := by simpa using List.find?_some hfind
              rw [findVal, hfind] at hleaf
              simp only [Option.map_some'] at hleaf
              have hv : kv.2 = leaf := by simpa using hleaf
              have hcond : (seg = "*" || seg = kv.1) = true := by
                rw [hk]
                exact hseg
              have hmap : findVal a (fs.map (fun kv =>
                  if seg = "*" || seg = kv.1 then
                    (kv.1, applyCensor cen kv.2 (pre ++ [kv.1]))
                  else kv)) = some (applyCensor cen leaf (pre ++ [a])) := by
                rw [findVal, find?_map_keypres _ (fun kv2 => by
                    by_cases hc : (seg = "*" || seg = kv2.1) = true
                    · rw [if_pos hc]
                    · rw [if_neg hc]), hfind]
                simp only [Option.map_some']
                rw [if_pos hcond, hk, hv]
              rw [hmap]
          case arr xs =>
            rw [redactSegs_arr_one]
            simp only [lookupPath] at hleaf ⊢
            cases hsi : segIdx a with
            | none =>
              simp only [hsi] at hleaf
              simp at hleaf
            | some i =>
              simp only [hsi] at hleaf
              cases hxi : xs.get? i with
              | none =>
                simp only [hxi] at hleaf
                simp at hleaf
              | some x =>
                simp only [hxi] at hleaf
                have hx : x = leaf := by simpa using hleaf
                have hilen : i < xs.length := by
                  rw [List.get?_eq_getElem?] at hxi
                  exact (List.getElem?_eq_some.mp hxi).1
                by_cases hstar : seg = "*"
                · rw [if_pos hstar]
                  simp only [lookupPath, hsi]
                  have hmget : (((List.range xs.length).zip xs).map (fun p =>
                      applyCensor cen p.2 (pre ++ [natStr p.1]))).get? i =
                      some (applyCensor cen x (pre ++ [natStr i])) := by
                    rw [List.get?_eq_getElem?, List.getElem?_map, zipRange_getElem,
                      ← List.get?_eq_getElem?, hxi]
                    rfl
                  rw [hmget, segIdx_natStr hsi, hx]
                · rw [if_neg hstar]
                  have hsa : seg = a := by
                    simp only [Bool.or_eq_true, decide_eq_true_eq] at hseg
                    rcases hseg with h | h
                    · exact absurd h hstar
                    · exact h
                  subst hsa
                  simp only [hsi, hxi]
                  simp only [lookupPath, hsi, List.get?_eq_getElem?,
                    List.getElem?_set_self hilen, hx]
          all_goals simp only [lookupPath] at hleaf
          all_goals exact Option.noConfusion hleaf
      | cons s2 rest2 =>
        cases as with
        | nil => exact absurd hrest (by simp [matchAddr])
        | cons a2 as2 =>
          cases v
          case obj fs =>
            rw [redactSegs_obj_cons]
            simp only [lookupPath] at hleaf ⊢
            cases hfind : fs.find? (fun kv => kv.1 = a) with
            | none =>
              rw [findVal, hfind] at hleaf
              simp at hleaf
            | some kv =>
              have hk : kv.1 = a := by simpa using List.find?_some hfind
              rw [findVal, hfind] at hleaf
              simp only [Option.map_some'] at hleaf
              have hcond : (seg = "*" || seg = kv.1) = true := by
                rw [hk]
                exact hseg
              have hmap : findVal a (fs.map (fun kv =>
                  if seg = "*" || seg = kv.1 then
                    (kv.1, redactSegs cen (pre ++ [kv.1]) (s2 :: rest2) kv.2)
                  else kv)) =
                  some (redactSegs cen (pre ++ [a]) (s2 :: rest2) kv.2) := by
                rw [findVal, find?_map_keypres _ (fun kv2 => by
                    by_cases hc : (seg = "*" || seg = kv2.1) = true
                    · rw [if_pos hc]
                    · rw [if_neg hc]), hfind]
                simp only [Option.map_some']
                rw [if_pos hcond, hk]
              rw [hmap]
              show lookupPath (a2 :: as2)
                  (redactSegs cen (pre ++ [a]) (s2 :: rest2) kv.2) =
                some (applyCensor cen leaf (pre ++ a :: a2 :: as2))
              rw [ih (by simp) (a2 :: as2) (pre ++ [a]) kv.2 leaf hrest hleaf]
              simp [List.append_assoc]
          case arr xs =>
            rw [redactSegs_arr_cons]
            simp only [lookupPath] at hleaf ⊢
            cases hsi : segIdx a with
            | none =>
              simp only [hsi] at hleaf
              simp at hleaf
            | some i =>
              simp only [hsi] at hleaf
              cases hxi : xs.get? i with
              | none =>
                simp only [hxi] at hleaf
                simp at hleaf
              | some x =>
                simp only [hxi] at hleaf
                have hilen : i < xs.length := by
                  rw [List.get?_eq_getElem?] at hxi
                  exact (List.getElem?_eq_some.mp hxi).1
                by_cases hstar : seg = "*"
                · rw [if_pos hstar]
                  simp only [lookupPath, hsi]
                  have hmget : (((List.range xs.length).zip xs).map (fun p =>
                      redactSegs cen (pre ++ [natStr p.1]) (s2 :: rest2)
                        p.2)).get? i =
                      some (redactSegs cen (pre ++ [natStr i]) (s2 :: rest2)
                        x) := by
                    rw [List.get?_eq_getElem?, List.getElem?_map, zipRange_getElem,
                      ← List.get?_eq_getElem?, hxi]
                    rfl
                  rw [hmget, segIdx_natStr hsi]
                  show lookupPath (a2 :: as2)
                      (redactSegs cen (pre ++ [a]) (s2 :: rest2) x) =
                    some (applyCensor cen leaf (pre ++ a :: a2 :: as2))
                  rw [ih (by simp) (a2 :: as2) (pre ++ [a]) x leaf hrest hleaf]
                  simp [List.append_assoc]
                · rw [if_neg hstar]
                  have hsa : seg = a := by
                    simp only [Bool.or_eq_true, decide_eq_true_eq] at hseg
                    rcases hseg with h | h
                    · exact absurd h hstar
                    · exact h
                  subst hsa
                  simp only [hsi, hxi]
                  simp only [lookupPath, hsi, List.get?_eq_getElem?,
                    List.getElem?_set_self hilen]
                  rw [ih (by simp) (a2 :: as2) (pre ++ [seg]) x leaf hrest hleaf]
                  simp [List.append_assoc]
          all_goals simp only [lookupPath] at hleaf
          all_goals exact Option.noConfusion hleaf

theorem redactSegs_obj_fields (cen : Censor) (pre segs : List String)
    (fs : List (String × JVal)) :
    ∃ fs', redactSegs cen pre segs (JVal.obj fs) = JVal.obj fs' ∧
      fs'.map (fun kv => kv.1) = fs.map (fun kv => kv.1) := by
  cases segs with
  | nil => exact ⟨fs, redactSegs_nil cen pre _, rfl⟩
  | cons seg rest =>
    cases rest with
    | nil =>
      refine ⟨_, redactSegs_obj_one cen pre seg fs, ?_⟩
      rw [List.map_map]
      refine List.map_congr_left (fun kv _ => ?_)
      by_cases hc : (seg = "*" || seg = kv.1) = true <;>
        simp [hc, Function.comp]
    | cons s2 rest2 =>
      refine ⟨_, redactSegs_obj_cons cen pre seg s2 rest2 fs, ?_⟩
      rw [List.map_map]
      refine List.map_congr_left (fun kv _ => ?_)
      by_cases hc : (seg = "*" || seg = kv.1) = true <;>
        simp [hc, Function.comp]

theorem redact_obj_fields (o : RedactOptions) (fs : List (String × JVal)) :
    ∃ fs', redact o (JVal.obj fs) = JVal.obj fs' ∧
      fs'.map (fun kv => kv.1) = fs.map (fun kv => kv.1) := by
  rw [redact]
  generalize effCensor o = cen
  generalize o.paths = ps
  induction ps generalizing fs with
  | nil => exact ⟨fs, rfl, rfl⟩
  | cons p ps ih =>
    rw [List.foldl_cons]
    obtain ⟨fs1, h1, hk1⟩ := redactSegs_obj_fields cen [] p fs
    rw [h1]
    obtain ⟨fs2, h2, hk2⟩ := ih fs1
    exact ⟨fs2, h2, hk2.trans hk1⟩

theorem lookupPath_objAssign (r fs : List (String × JVal)) (a : String)
    (as : List String) (hnodup : keysNodupB fs = true)
    (hmem : (fs.find? (fun kv => kv.1 = a)).isSome = true) :
    lookupPath (a :: as) (JVal.obj (objAssign r (JVal.obj fs))) =
      lookupPath (a :: as) (JVal.obj fs) := by
  obtain ⟨kv, hkv⟩ := Option.isSome_iff_exists.mp hmem
  have hfv : findVal a fs = some kv.2 := by
    rw [findVal, hkv]
    rfl
  simp only [lookupPath]
  rw [findVal_objAssign_obj_present r fs a kv.2 hfv hnodup, hfv]

theorem parseNumTail_obj (neg : Bool) (cs : List Char)
    (fs : List (String × JVal)) (r : List Char)
    (h : parseNumTail neg cs = some (JVal.obj fs, r)) : False := by
  rw [parseNumTail] at h
  split at h
  · exact Option.noConfusion h
  · simp at h

theorem parseVal_obj_nodup (f : Nat) (cs : List Char)
    (fs : List (String × JVal)) (r : List Char)
    (h : parseVal f cs = some (JVal.obj fs, r)) : keysNodupB fs = true := by
  cases f with
  | zero => rw [parseVal] at h; exact Option.noConfusion h
  | succ f =>
    rw [parseVal] at h
    repeat' split at h
    all_goals first
      | exact Option.noConfusion h
      | exact absurd h (fun h2 => parseNumTail_obj _ _ _ _ h2)
      | (simp only [Option.some.injEq, Prod.mk.injEq, JVal.obj.injEq] at h
         rw [← h.1]
         first
           | rfl
           | exact keysNodupB_collapseFields _)
      | simp at h

theorem parseJson_obj_nodup (s : String) (fs : List (String × JVal))
    (h : parseJson s = some (JVal.obj fs)) : keysNodupB fs = true := by
  rw [parseJson] at h
  cases hp : parseVal (2 * s.data.length + 2) s.data with
  | none => rw [hp] at h; exact Option.noConfusion h
  | some p =>
    obtain ⟨v, r⟩ := p
    rw [hp] at h
    split at h
    next heq => exact Option.noConfusion heq
    next v2 r2 heq =>
      injection heq with heq2
      injection heq2 with hv hr
      subst hv
      subst hr
      split at h
      · injection h with h2
        subst h2
        exact parseVal_obj_nodup _ _ _ _ hp
      · exact Option.noConfusion h

theorem cleanseFields_keys_sub (fs : List (String × JVal)) (k : String)
    (h : (cleanseFields fs).any (fun kv => kv.1 = k) = true) :
    fs.any (fun kv => kv.1 = k) = true := by
  induction fs with
  | nil => simp [cleanseFields] at h
  | cons kv fs ih =>
    obtain ⟨k1, v1⟩ := kv
    rw [cleanseFields] at h
    split at h
    next hser =>
      simp only [List.any_cons, Bool.or_eq_true] at h ⊢
      rcases h with h1 | h1
      · exact Or.inl h1
      · exact Or.inr (ih h1)
    next hser =>
      simp only [List.any_cons, Bool.or_eq_true]
      exact Or.inr (ih h)

theorem cleanseFields_not_key (fs : List (String × JVal)) (k : String)
    (h : ∀ kv ∈ fs, kv.1 = k → serializableB kv.2 = false) :
    (cleanseFields fs).any (fun kv => kv.1 = k) = false := by
  induction fs with
  | nil => rfl
  | cons kv fs ih =>
    obtain ⟨k1, v1⟩ := kv
    rw [cleanseFields]
    split
    next hser =>
      simp only [List.any_cons]
      have hne : ¬(k1 = k) := by
        intro he
        have h2 := h (k1, v1) (List.mem_cons_self _ _) he
        exact Bool.noConfusion (hser.symm.trans h2)
      rw [ih (fun kv hm => h kv (List.mem_cons_of_mem _ hm))]
      simp [hne]
    next hser => exact ih (fun kv hm => h kv (List.mem_cons_of_mem _ hm))

theorem findVal_nodup_unique (fs : List (String × JVal)) (k : String)
    (v : JVal) :
    keysNodupB fs = true → findVal k fs = some v →
      ∀ kv ∈ fs, kv.1 = k → kv.2 = v := by
  induction fs with
  | nil =>
    intro _ _ kv hm
    exact absurd hm (by simp)
  | cons kv0 fs ih =>
    obtain ⟨k1, v1⟩ := kv0
    intro hnodup hfind kv hm hk
    simp only [keysNodupB, Bool.and_eq_true, Bool.not_eq_true'] at hnodup
    rcases List.mem_cons.mp hm with he | hm2
    · rw [he] at hk ⊢
      rw [findVal, List.find?_cons_of_pos _ (by simpa using hk)] at hfind
      simpa using hfind
    · by_cases hk1 : k1 = k
      · exfalso
        have h2 := List.any_eq_false.mp hnodup.1 kv hm2
        simp only [decide_eq_true_eq] at h2
        exact h2 (hk.trans hk1.symm)
      · rw [findVal, List.find?_cons_of_neg _ (by simp [hk1])] at hfind
        exact ih hnodup.2 hfind kv hm2 hk

/-! ### The value normalizer: big-integer widening, and nothing else -/

mutual

/-- No arbitrary-precision integer anywhere in the value. -/
def bigFreeB : JVal → Bool
  | JVal.big _ => false
  | JVal.arr xs => bigFreeListB xs
  | JVal.obj fs => bigFreeFieldsB fs
  | _ => true

/-- `bigFreeB` on element lists. -/
def bigFreeListB : List JVal → Bool
  | [] => true
  | x :: xs => bigFreeB x && bigFreeListB xs

/-- `bigFreeB` on member lists. -/
def bigFreeFieldsB : List (String × JVal) → Bool
  | [] => true
  | (_, v) :: fs => bigFreeB v && bigFreeFieldsB fs

end

mutual

theorem normalize_bigFree : ∀ (v : JVal), bigFreeB v = true → normalize v = v
  | JVal.null => fun _ => rfl
  | JVal.bool _ => fun _ => rfl
  | JVal.num _ => fun _ => rfl
  | JVal.str _ => fun _ => rfl
  | JVal.undef => fun _ => rfl
  | JVal.func => fun _ => rfl
  | JVal.sym => fun _ => rfl
  | JVal.big _ => fun h => Bool.noConfusion h
  | JVal.arr xs => by
    intro h
    show JVal.arr (normalizeList xs) = JVal.arr xs
    rw [normalizeList_bigFree xs h]
  | JVal.obj fs => by
    intro h
    show JVal.obj (normalizeFields fs) = JVal.obj fs
    rw [normalizeFields_bigFree fs h]

theorem normalizeList_bigFree : ∀ (xs : List JVal),
    bigFreeListB xs = true → normalizeList xs = xs
  | [] => fun _ => rfl
  | x :: xs => by
    intro h
    have h2 : bigFreeB x = true ∧ bigFreeListB xs = true := by
      have h1 : bigFreeListB (x :: xs) = (bigFreeB x && bigFreeListB xs) := rfl
      rw [h1, Bool.and_eq_true] at h
      exact h
    show normalize x :: normalizeList xs = x :: xs
    rw [normalize_bigFree x h2.1, normalizeList_bigFree xs h2.2]

theorem normalizeFields_bigFree : ∀ (fs : List (String × JVal)),
    bigFreeFieldsB fs = true → normalizeFields fs = fs
  | [] => fun _ => rfl
  | (k, v) :: fs => by
    intro h
    have h2 : bigFreeB v = true ∧ bigFreeFieldsB fs = true := by
      have h1 : bigFreeFieldsB ((k, v) :: fs) =
        (bigFreeB v && bigFreeFieldsB fs) := rfl
      rw [h1, Bool.and_eq_true] at h
      exact h
    show (k, normalize v) :: normalizeFields fs = (k, v) :: fs
    rw [normalize_bigFree v h2.1, normalizeFields_bigFree fs h2.2]

end

mutual

theorem normalize_idem : ∀ (v : JVal), normalize (normalize v) = normalize v
  | JVal.null => rfl
  | JVal.bool _ => rfl
  | JVal.num _ => rfl
  | JVal.str _ => rfl
  | JVal.undef => rfl
  | JVal.func => rfl
  | JVal.sym => rfl
  | JVal.big _ => rfl
  | JVal.arr xs => by
    show normalize (JVal.arr (normalizeList xs)) = _
    show JVal.arr (normalizeList (normalizeList xs)) = _
    rw [normalizeList_idem xs]
    rfl
  | JVal.obj fs => by
    show normalize (JVal.obj (normalizeFields fs)) = _
    show JVal.obj (normalizeFields (normalizeFields fs)) = _
    rw [normalizeFields_idem fs]
    rfl

theorem normalizeList_idem : ∀ (xs : List JVal),
    normalizeList (normalizeList xs) = normalizeList xs
  | [] => rfl
  | x :: xs => by
    show normalize (normalize x) :: normalizeList (normalizeList xs) = _
    rw [normalize_idem x, normalizeList_idem xs]
    rfl

theorem normalizeFields_idem : ∀ (fs : List (String × JVal)),
    normalizeFields (normalizeFields fs) = normalizeFields fs
  | [] => rfl
  | (k, v) :: fs => by
    show (k, normalize (normalize v)) ::
      normalizeFields (normalizeFields fs) = _
    rw [normalize_idem v, normalizeFields_idem fs]
    rfl

end

mutual

theorem strValC_normalize : ∀ (v : JVal), strValC (normalize v) = strValC v
  | JVal.null => rfl
  | JVal.bool _ => rfl
  | JVal.num _ => rfl
  | JVal.str _ => rfl
  | JVal.big _ => rfl
  | JVal.undef => rfl
  | JVal.func => rfl
  | JVal.sym => rfl
  | JVal.arr xs => by
    show strValC (JVal.arr (normalizeList xs)) = _
    show some (lbrack :: strElemsC (normalizeList xs) ++ [rbrack]) = _
    rw [strElemsC_normalize xs]
    rfl
  | JVal.obj fs => by
    show strValC (JVal.obj (normalizeFields fs)) = _
    show some (lcurl :: strMembersC (normalizeFields fs) ++ [rcurl]) = _
    rw [strMembersC_normalize fs]
    rfl

theorem strElemsC_normalize : ∀ (xs : List JVal),
    strElemsC (normalizeList xs) = strElemsC xs
  | [] => rfl
  | [x] => by
    show (strValC (normalize x)).getD "null".data =
      (strValC x).getD "null".data
    rw [strValC_normalize x]
  | x :: y :: xs => by
    show ((strValC (normalize x)).getD "null".data) ++
        comma :: strElemsC (normalizeList (y :: xs)) =
      ((strValC x).getD "null".data) ++ comma :: strElemsC (y :: xs)
    rw [strValC_normalize x, strElemsC_normalize (y :: xs)]

theorem strMembersC_normalize : ∀ (fs : List (String × JVal)),
    strMembersC (normalizeFields fs) = strMembersC fs
  | [] => rfl
  | (k, v) :: fs => by
    show strMembersC ((k, normalize v) :: normalizeFields fs) = _
    cases hv : strValC v with
    | none =>
      have h2 : strValC (normalize v) = none := by rw [strValC_normalize v, hv]
      simp only [strMembersC, h2, hv]
      exact strMembersC_normalize fs
    | some sv =>
      have h2 : strValC (normalize v) = some sv := by
        rw [strValC_normalize v, hv]
      simp only [strMembersC, h2, hv]
      rw [strMembersC_normalize fs]

end

/-! ### A cyclic object graph: serialization fails at every fuel -/

/-- A self-referential heap: its one node is an object whose field points
back at the node itself, as in a cyclic JavaScript object graph
(`JSON.stringify` throws a `TypeError` on it). -/
def cyclicHeap : Heap := [HNode.hobj [("self", 0)]]

theorem cyclic_strValH : ∀ f : Nat,
    strValH f cyclicHeap 0 = none ∧
      strMembersH f cyclicHeap [("self", 0)] = none := by
  intro f
  induction f with
  | zero => exact ⟨rfl, rfl⟩
  | succ f ih =>
    constructor
    · rw [strValH]
      have hg : cyclicHeap.get? 0 = some (HNode.hobj [("self", 0)]) := rfl
      simp only [hg, ih.2]
    · rw [strMembersH]
      simp only [ih.1]

theorem emitH_cyclic (fuel : Nat) (o : RedactOptions) :
    emitH fuel o cyclicHeap 0 = none := by
  have hg : cyclicHeap.get? 0 = some (HNode.hobj [("self", 0)]) := rfl
  have hrest : List.filter (fun kv => !(coreKeys.contains kv.1))
      [("self", (0 : Nat))] = [("self", 0)] := rfl
  simp only [emitH, hg, hrest, (cyclic_strValH fuel).2]

/-! ### A concrete global text replacement (for the examples) -/

/-- Character-list prefix test. -/
def startsWithL : List Char → List Char → Bool
  | [], _ => true
  | _ :: _, [] => false
  | p :: ps, c :: cs => p = c && startsWithL ps cs

/-- Replaces every occurrence of a pattern, left to right; the fuel is the
input length (one character is consumed per step). -/
def replaceSubF : Nat → List Char → List Char → List Char → List Char
  | 0, _, _, l => l
  | _ + 1, _, _, [] => []
  | f + 1, pat, rep, c :: cs =>
    if startsWithL pat (c :: cs) ∧ pat ≠ [] then
      rep ++ replaceSubF f pat rep ((c :: cs).drop pat.length)
    else c :: replaceSubF f pat rep cs

/-- A concrete global replacement function on strings, as the README's
phone-number rewriting example uses. -/
def strReplace (pat rep s : String) : String :=
  String.mk (replaceSubF s.data.length pat.data rep.data s.data)

/-! ### The emission pipeline without a global replace function -/

/-- With no `globalReplace` configured, a successful emission assigns over
the record exactly the redacted round-trip copy of its non-core fields;
the copy's top-level keys are those of the cleansed remainder. -/
theorem emitRecord_noreplace (o : RedactOptions) (r out : List (String × JVal))
    (hg : o.globalReplace = none)
    (hwf : wfKeysB (JVal.obj (restOf r)) = true)
    (hemit : emitRecord o r = some out) :
    ∃ fs', out = objAssign r (JVal.obj fs') ∧
      fs'.map (fun kv => kv.1) =
        (cleanseFields (restOf r)).map (fun kv => kv.1) := by
  rw [emitRecord] at hemit
  cases hs : jsonStringify (JVal.obj (restOf r)) with
  | none =>
    rw [hs] at hemit
    exact Option.noConfusion hemit
  | some s =>
    have hser : serializableB (JVal.obj (restOf r)) = true := rfl
    have hparse := parse_jsonStringify (JVal.obj (restOf r)) s hwf hser hs
    have hcl : cleanseV (JVal.obj (restOf r)) =
        JVal.obj (cleanseFields (restOf r)) := rfl
    rw [hcl] at hparse
    have hgr : (o.globalReplace.getD id) s = s := by
      rw [hg]
      rfl
    simp only [hs, hgr, hparse] at hemit
    obtain ⟨fs', hred, hkeys⟩ := redact_obj_fields o (cleanseFields (restOf r))
    rw [hred] at hemit
    injection hemit with h2
    exact ⟨fs', h2.symm, hkeys⟩

/-- C2 (amended): with no globalReplace configured, for every redaction
config (any paths, any censor) and every emitted log record, the protocol
fields v, level, name, hostname, pid and time of the record are never
altered or removed by the redaction pass in the emission interceptor: the
assigned copy holds only non-core keys, so every core key keeps its
binding.  (The unamended claim, quantifying over every globalReplace
function, is refuted by `global_replace_clobbers_level`.) -/
theorem protocol_fields_preserved (o : RedactOptions)
    (r out : List (String × JVal)) (k : String)
    (hg : o.globalReplace = none)
    (hwf : wfKeysB (JVal.obj (restOf r)) = true)
    (hk : coreKeys.contains k = true)
    (hemit : emitRecord o r = some out) :
    findVal k out = findVal k r := by
  obtain ⟨fs', hout, hkeys⟩ := emitRecord_noreplace o r out hg hwf hemit
  rw [hout]
  refine findVal_objAssign_not_mem r (JVal.obj fs') k (fun hmem => ?_)
  rw [show topKeys (JVal.obj fs') = fs'.map (fun kv => kv.1) from rfl,
    hkeys] at hmem
  obtain ⟨kv, hkv, hkvk⟩ := List.mem_map.mp hmem
  have hany : (cleanseFields (restOf r)).any (fun kv => kv.1 = k) = true := by
    rw [List.any_eq_true]
    exact ⟨kv, hkv, by simp [hkvk]⟩
  have hany2 := cleanseFields_keys_sub (restOf r) k hany
  obtain ⟨kv2, hkv2, hkv2k⟩ := List.any_eq_true.mp hany2
  have hnc := restOf_not_core r kv2 hkv2
  simp only [decide_eq_true_eq] at hkv2k
  rw [hkv2k, hk] at hnc
  exact Bool.noConfusion hnc

/-- The configuration of `global_replace_clobbers_level`: no paths, no
censor, and a global replace function whose output is a record text that
redefines `level`. -/
def cexOpts : RedactOptions :=
  RedactOptions.mk [] none (some (fun _ => "\x7b\"level\":0\x7d"))

/-- A well-formed bunyan record with `level` 30. -/
def cexRec : List (String × JVal) :=
  [("v", JVal.num 0), ("level", JVal.num 30), ("msg", JVal.str "hi")]

/-- Counterexample to the unamended C2: a globalReplace function whose
output text carries a `"level"` key makes the emission interceptor
overwrite the record's protocol field `level` (30 becomes 0), because the
replaced text is parsed and `Object.assign`ed over the record. -/
theorem global_replace_clobbers_level :
    emitRecord cexOpts cexRec =
      some [("v", JVal.num 0), ("level", JVal.num 0),
        ("msg", JVal.str "hi")] ∧
    findVal "level" cexRec = some (JVal.num 30) := ⟨rfl, rfl⟩

/-- The record of `protocol_fields_preserved_witness`. -/
def w2Opts : RedactOptions := RedactOptions.mk [["password"]] none none

/-- A full bunyan record carrying every protocol field and a secret. -/
def w2Rec : List (String × JVal) :=
  [("v", JVal.num 0), ("level", JVal.num 30), ("name", JVal.str "test"),
   ("hostname", JVal.str "host"), ("pid", JVal.num 1),
   ("time", JVal.str "t"), ("msg", JVal.str "hi"),
   ("password", JVal.str "s3cret")]

/-- The emission of `w2Rec` under `w2Opts`: password redacted, protocol
fields intact. -/
def w2Out : List (String × JVal) :=
  [("v", JVal.num 0), ("level", JVal.num 30), ("name", JVal.str "test"),
   ("hostname", JVal.str "host"), ("pid", JVal.num 1),
   ("time", JVal.str "t"), ("msg", JVal.str "hi"),
   ("password", JVal.str "[REDACTED]")]

theorem protocol_fields_preserved_witness :
    emitRecord w2Opts w2Rec = some w2Out ∧
    findVal "level" w2Out = findVal "level" w2Rec ∧
    findVal "time" w2Out = findVal "time" w2Rec ∧
    findVal "password" w2Out = some (JVal.str "[REDACTED]") :=
  ⟨rfl,
   protocol_fields_preserved w2Opts w2Rec w2Out "level" rfl rfl rfl rfl,
   protocol_fields_preserved w2Opts w2Rec w2Out "time" rfl rfl rfl rfl,
   rfl⟩

/-- C8 (amended): with no globalReplace configured, a non-protocol field
whose value JSON serialization omits (a function value, undefined, or a
symbol) survives emission with its original value: the serialized text and
hence the redacted copy lack the key, and `Object.assign` never removes or
overwrites keys absent from the copy.  (The unamended claim, also covering
configs with a globalReplace function, is refuted by
`global_replace_overwrites_omitted`.) -/
theorem omitted_values_preserved (o : RedactOptions)
    (r out : List (String × JVal)) (k : String) (v : JVal)
    (hg : o.globalReplace = none)
    (hwf : wfKeysB (JVal.obj (restOf r)) = true)
    (hk : coreKeys.contains k = false)
    (hv : findVal k r = some v)
    (homit : serializableB v = false)
    (hemit : emitRecord o r = some out) :
    findVal k out = some v := by
  obtain ⟨fs', hout, hkeys⟩ := emitRecord_noreplace o r out hg hwf hemit
  have hnodup : keysNodupB (restOf r) = true := by
    have h1 : wfKeysB (JVal.obj (restOf r)) =
      (keysNodupB (restOf r) && wfKeysFieldsB (restOf r)) := rfl
    rw [h1, Bool.and_eq_true] at hwf
    exact hwf.1
  have hv2 : findVal k (restOf r) = some v := by
    rw [findVal_restOf r k hk]
    exact hv
  have huniq := findVal_nodup_unique (restOf r) k v hnodup hv2
  have hnone := cleanseFields_not_key (restOf r) k (fun kv hm hkk => by
    rw [huniq kv hm hkk]
    exact homit)
  have hnotmem : ¬ k ∈ topKeys (JVal.obj fs') := by
    intro hmem
    rw [show topKeys (JVal.obj fs') = fs'.map (fun kv => kv.1) from rfl,
      hkeys] at hmem
    obtain ⟨kv, hkv, hkvk⟩ := List.mem_map.mp hmem
    have hany : (cleanseFields (restOf r)).any (fun kv => kv.1 = k) = true := by
      rw [List.any_eq_true]
      exact ⟨kv, hkv, by simp [hkvk]⟩
    rw [hnone] at hany
    exact Bool.noConfusion hany
  rw [hout, findVal_objAssign_not_mem r (JVal.obj fs') k hnotmem]
  exact hv

/-- The configuration of `global_replace_overwrites_omitted`: a global
replace function whose output text introduces the omitted field's key. -/
def c8Opts : RedactOptions :=
  RedactOptions.mk [] none (some (fun _ => "\x7b\"f\":1\x7d"))

/-- A record with a function-valued field `f`. -/
def c8Rec : List (String × JVal) := [("msg", JVal.str "m"), ("f", JVal.func)]

/-- Counterexample to the unamended C8: although `JSON.stringify` omits the
function-valued field `f`, a globalReplace output carrying an `"f"` key
makes the merge overwrite it, so the emitted record does not keep the
original value. -/
theorem global_replace_overwrites_omitted :
    findVal "f" c8Rec = some JVal.func ∧
    emitRecord c8Opts c8Rec =
      some [("msg", JVal.str "m"), ("f", JVal.num 1)] := ⟨rfl, rfl⟩

/-- The configuration and record of `omitted_values_preserved_witness`. -/
def w8Opts : RedactOptions := RedactOptions.mk [] none none

/-- A record with a function-valued field `f`. -/
def w8Rec : List (String × JVal) := [("msg", JVal.str "m"), ("f", JVal.func)]

theorem omitted_values_preserved_witness :
    emitRecord w8Opts w8Rec = some [("msg", JVal.str "m"), ("f", JVal.func)] ∧
    findVal "f" [("msg", JVal.str "m"), ("f", JVal.func)] = some JVal.func :=
  ⟨rfl,
   omitted_values_preserved w8Opts w8Rec
     [("msg", JVal.str "m"), ("f", JVal.func)] "f" JVal.func
     rfl rfl rfl rfl rfl rfl⟩

/-- C1: non-mutation.  For every redaction config and every heap, a
successful emission leaves every pre-existing address other than the
record's own root node exactly as it was: the interceptor serializes the
non-protocol remainder to text and redacts only the freshly parsed copy,
so the caller's object graph is unchanged — also across a second emission
of the same record. -/
theorem emit_nonmutation (fuel : Nat) (o : RedactOptions) (h : Heap)
    (root : Nat) (h2 : Heap) (hemit : emitH fuel o h root = some h2) :
    (∀ b, b < h.length → b ≠ root → h2.get? b = h.get? b) ∧
    (∀ h3, emitH fuel o h2 root = some h3 →
      ∀ b, b < h.length → b ≠ root → h3.get? b = h.get? b) := by
  have h1 := emitH_frame fuel o h root h2 hemit
  refine ⟨h1.1, fun h3 hemit2 b hb hbr => ?_⟩
  have h2f := emitH_frame fuel o h2 root h3 hemit2
  rw [h2f.1 b (lt_of_lt_of_le hb h1.2) hbr]
  exact h1.1 b hb hbr

/-- The heap of `emit_nonmutation_witness`: node 0 is the caller's secret,
node 1 the caller's request object, node 2 the log record (sharing node 1),
node 3 the message. -/
def c1Heap : Heap :=
  [HNode.leaf (JVal.str "s3cret"),
   HNode.hobj [("password", 0)],
   HNode.hobj [("req", 1), ("msg", 3)],
   HNode.leaf (JVal.str "hello")]

/-- Redaction config of the witness: redact `req.password`. -/
def c1Opts : RedactOptions := RedactOptions.mk [["req", "password"]] none none

/-- The heap after emission: nodes 0–3 untouched, the parsed copy in nodes
4–7, the redacted password in node 8, and only the record root (node 2)
rewritten to point at the copy. -/
def c1Out : Heap :=
  [HNode.leaf (JVal.str "s3cret"),
   HNode.hobj [("password", 0)],
   HNode.hobj [("req", 5), ("msg", 6)],
   HNode.leaf (JVal.str "hello"),
   HNode.leaf (JVal.str "s3cret"),
   HNode.hobj [("password", 8)],
   HNode.leaf (JVal.str "hello"),
   HNode.hobj [("req", 5), ("msg", 6)],
   HNode.leaf (JVal.str "[REDACTED]")]

theorem emit_nonmutation_witness :
    emitH 20 c1Opts c1Heap 2 = some c1Out ∧
    (∀ b, b < c1Heap.length → b ≠ 2 → c1Out.get? b = c1Heap.get? b) ∧
    c1Heap.get? 0 = some (HNode.leaf (JVal.str "s3cret")) :=
  ⟨by with_unfolding_all rfl,
   (emit_nonmutation 20 c1Opts c1Heap 2 c1Out (by with_unfolding_all rfl)).1,
   rfl⟩

/-- C3: combined pipeline ordering.  With a single path pattern and a
globalReplace function configured, the global replace is applied to the
serialized text before path redaction is applied to the parsed structure:
every address the pattern matches that reaches a value in the parsed
(post-replace) copy ends up holding exactly the censor result in the
emitted record. -/
theorem path_redaction_after_global_replace (o : RedactOptions)
    (segs : List String) (g : String → String)
    (r out : List (String × JVal)) (s : String)
    (pf : List (String × JVal)) (addr : List String) (leaf : JVal)
    (hpaths : o.paths = [segs]) (hg : o.globalReplace = some g)
    (hs : jsonStringify (JVal.obj (restOf r)) = some s)
    (hparse : parseJson (g s) = some (JVal.obj pf))
    (hne : segs ≠ [])
    (hmatch : matchAddr segs addr = true)
    (hleaf : lookupPath addr (JVal.obj pf) = some leaf)
    (hemit : emitRecord o r = some out) :
    lookupPath addr (JVal.obj out) =
      some (applyCensor (effCensor o) leaf addr) := by
  rw [emitRecord] at hemit
  have hgr : (o.globalReplace.getD id) s = g s := by
    rw [hg]
    rfl
  simp only [hs, hgr, hparse] at hemit
  injection hemit with hout
  cases addr with
  | nil =>
    refine absurd hmatch ?_
    cases segs with
    | nil => exact absurd rfl hne
    | cons s1 s2 => simp [matchAddr]
  | cons a as =>
    have hnodup := parseJson_obj_nodup (g s) pf hparse
    have hred1 : redact o (JVal.obj pf) =
        redactSegs (effCensor o) [] segs (JVal.obj pf) := by
      rw [redact, hpaths]
      rfl
    have hlook := redactSegs_lookup (effCensor o) segs hne (a :: as) []
      (JVal.obj pf) leaf hmatch hleaf
    obtain ⟨fs', hobj, hkeys⟩ := redactSegs_obj_fields (effCensor o) [] segs pf
    have hnodup2 : keysNodupB fs' = true := by
      rw [keysNodupB_of_keys_eq fs' pf hkeys]
      exact hnodup
    have hfA : (pf.find? (fun kv => kv.1 = a)).isSome = true := by
      simp only [lookupPath, findVal] at hleaf
      cases hf : pf.find? (fun kv => kv.1 = a) with
      | none =>
        rw [hf] at hleaf
        simp at hleaf
      | some kv => rfl
    have hfA2 : (fs'.find? (fun kv => kv.1 = a)).isSome = true := by
      rw [List.find?_isSome]
      obtain ⟨kv, hkv⟩ := Option.isSome_iff_exists.mp hfA
      have hkmem : a ∈ fs'.map (fun kv => kv.1) := by
        rw [hkeys]
        exact List.mem_map.mpr ⟨kv, List.mem_of_find?_eq_some hkv,
          by simpa using List.find?_some hkv⟩
      obtain ⟨kv2, hkv2, hkv2a⟩ := List.mem_map.mp hkmem
      exact ⟨kv2, hkv2, by simp [hkv2a]⟩
    rw [← hout, hred1, hobj,
      lookupPath_objAssign r fs' a as hnodup2 hfA2, ← hobj, hlook]
    rfl

/-- The record of `path_redaction_witness`: the README example, a phone
number inside `a.b.c`. -/
def w3Rec : List (String × JVal) :=
  [("msg", JVal.str "hello"),
   ("a", JVal.obj [("b", JVal.obj [("c",
     JVal.str "Call me at +1234567890")])])]

/-- A concrete phone-number-rewriting global replace function. -/
def w3g : String → String := strReplace "+1234567890" "+123456XXXX"

/-- The config of `path_redaction_witness`: path pattern `a.*.c` and the
phone rewriter. -/
def w3Opts : RedactOptions :=
  RedactOptions.mk [["a", "*", "c"]] none (some w3g)

theorem path_redaction_witness :
    emitRecord w3Opts w3Rec =
      some [("msg", JVal.str "hello"),
        ("a", JVal.obj [("b", JVal.obj [("c", JVal.str "[REDACTED]")])])] ∧
    lookupPath ["a", "b", "c"]
      (JVal.obj [("msg", JVal.str "hello"),
        ("a", JVal.obj [("b", JVal.obj [("c", JVal.str "[REDACTED]")])])]) =
      some (JVal.str "[REDACTED]") :=
  ⟨rfl,
   path_redaction_after_global_replace w3Opts ["a", "*", "c"] w3g w3Rec
     [("msg", JVal.str "hello"),
      ("a", JVal.obj [("b", JVal.obj [("c", JVal.str "[REDACTED]")])])]
     "\x7b\"msg\":\"hello\",\"a\":\x7b\"b\":\x7b\"c\":\"Call me at +1234567890\"\x7d\x7d\x7d"
     [("msg", JVal.str "hello"),
      ("a", JVal.obj [("b", JVal.obj [("c",
        JVal.str "Call me at +123456XXXX")])])]
     ["a", "b", "c"] (JVal.str "Call me at +123456XXXX")
     rfl rfl rfl rfl (by simp) rfl rfl rfl⟩

/-- C4: global replace correctness.  The emission depends on the configured
globalReplace function only through its single application to the full
serialized text of the non-protocol fields (so two configs agreeing there
emit identically, and the rewrite reaches the message and nested text
alike); with no globalReplace configured, the pipeline behaves exactly as
with the identity function. -/
theorem global_replace_once_and_default_id :
    (∀ (o o2 : RedactOptions) (r : List (String × JVal)) (s : String),
      jsonStringify (JVal.obj (restOf r)) = some s →
      o.paths = o2.paths → o.censor = o2.censor →
      (o.globalReplace.getD id) s = (o2.globalReplace.getD id) s →
      emitRecord o r = emitRecord o2 r) ∧
    (∀ (ps : List (List String)) (c : Option Censor)
      (r : List (String × JVal)),
      emitRecord (RedactOptions.mk ps c none) r =
        emitRecord (RedactOptions.mk ps c (some id)) r) := by
  constructor
  · intro o o2 r s hs hp hc hagree
    have hcen : effCensor o = effCensor o2 := by
      rw [effCensor, effCensor, hc]
    rw [emitRecord, emitRecord]
    simp only [hs, hagree]
    cases hp2 : parseJson ((o2.globalReplace.getD id) s) with
    | none => rfl
    | some parsed =>
      have hred : ∀ v : JVal, redact o v = redact o2 v := fun v => by
        rw [redact, redact, hp, hcen]
      cases parsed <;> simp [hred]
  · intro ps c r
    rfl

/-- The record of `global_replace_once_witness`: the phone number appears
in the message and in a nested field. -/
def w4Rec : List (String × JVal) :=
  [("msg", JVal.str "call +1234567890"),
   ("a", JVal.obj [("b", JVal.str "call +1234567890")])]

/-- The phone rewriter as a config. -/
def w4a : RedactOptions := RedactOptions.mk [] none (some w3g)

/-- A different global replace function that happens to agree with the
phone rewriter on this record's serialized text. -/
def w4b : RedactOptions :=
  RedactOptions.mk [] none (some (fun _ =>
    "\x7b\"msg\":\"call +123456XXXX\",\"a\":\x7b\"b\":\"call +123456XXXX\"\x7d\x7d"))

theorem global_replace_once_witness :
    emitRecord w4a w4Rec = emitRecord w4b w4Rec ∧
    emitRecord w4a w4Rec =
      some [("msg", JVal.str "call +123456XXXX"),
        ("a", JVal.obj [("b", JVal.str "call +123456XXXX")])] :=
  ⟨global_replace_once_and_default_id.1 w4a w4b w4Rec
     "\x7b\"msg\":\"call +1234567890\",\"a\":\x7b\"b\":\"call +1234567890\"\x7d\x7d"
     rfl rfl rfl rfl,
   rfl⟩

/-- C5: failure propagation.  When the pipeline cannot complete — the
globalReplace output fails to parse back, or the record's object graph is
cyclic so serialization fails at every fuel — the emission returns the
error (`none`), never a record bypassing redaction. -/
theorem emit_errors_propagate :
    (∀ (o : RedactOptions) (r : List (String × JVal)) (s : String),
      jsonStringify (JVal.obj (restOf r)) = some s →
      parseJson ((o.globalReplace.getD id) s) = none →
      emitRecord o r = none) ∧
    (∀ (fuel : Nat) (o : RedactOptions), emitH fuel o cyclicHeap 0 = none) := by
  constructor
  · intro o r s hs hp
    rw [emitRecord]
    simp only [hs, hp]
  · exact fun fuel o => emitH_cyclic fuel o

theorem emit_errors_propagate_witness :
    emitRecord (RedactOptions.mk [] none (some (fun _ => "@")))
      [("msg", JVal.str "hi")] = none ∧
    emitH 7 (RedactOptions.mk [] none none) cyclicHeap 0 = none :=
  ⟨emit_errors_propagate.1 (RedactOptions.mk [] none (some (fun _ => "@")))
     [("msg", JVal.str "hi")] "\x7b\"msg\":\"hi\"\x7d" rfl rfl,
   emit_errors_propagate.2 7 (RedactOptions.mk [] none none)⟩

/-- C6: numeric widening.  The value normalizer (`bigIntReplacer` applied
recursively, as `JSON.stringify` applies a replacer) turns every
arbitrary-precision integer into its decimal text, leaves every
big-integer-free value unchanged, and is exactly what the serialization of
the pipeline performs. -/
theorem bigint_normalization :
    (∀ n : Int, normalize (JVal.big n) = JVal.str (intStr n)) ∧
    (∀ v : JVal, bigFreeB v = true → normalize v = v) ∧
    (∀ v : JVal, jsonStringify (normalize v) = jsonStringify v) := by
  refine ⟨fun n => rfl, fun v h => normalize_bigFree v h, fun v => ?_⟩
  rw [jsonStringify, jsonStringify, strValC_normalize]

theorem bigint_normalization_witness :
    normalize (JVal.big 10) = JVal.str (intStr 10) ∧
    normalize (JVal.obj [("a", JVal.str "x")]) =
      JVal.obj [("a", JVal.str "x")] ∧
    jsonStringify (normalize (JVal.obj [("n", JVal.big 10)])) =
      jsonStringify (JVal.obj [("n", JVal.big 10)]) :=
  ⟨bigint_normalization.1 10,
   bigint_normalization.2.1 (JVal.obj [("a", JVal.str "x")]) rfl,
   bigint_normalization.2.2 (JVal.obj [("n", JVal.big 10)])⟩

/-- C7: idempotence of normalization.  Applying the value normalizer twice
yields the same result as applying it once, for every structured value. -/
theorem normalize_idempotent (v : JVal) :
    normalize (normalize v) = normalize v :=
  normalize_idem v

/-- C9: malformed serializer inputs.  Each detailed serializer returns its
input unchanged when the expected shape is missing: a request without a
truthy `method`, a response without a truthy `statusCode`, an error
without a truthy `stack`, and `null`/`undefined` inputs throughout. -/
theorem malformed_serializer_inputs_unchanged :
    (∀ req : JVal, (!truthy req || !truthy (getProp req "method")) = true →
      serializeReq req = req) ∧
    (∀ (res : JVal) (includeBody : Bool),
      (!truthy res || !truthy (getProp res "statusCode")) = true →
      responseSerializer res includeBody = res) ∧
    (∀ e : JVal, (!truthy e || !truthy (getProp e "stack")) = true →
      serializeErr e = e) ∧
    serializeReq JVal.null = JVal.null ∧
    serializeReq JVal.undef = JVal.undef ∧
    responseSerializer JVal.null false = JVal.null ∧
    serializeErr JVal.undef = JVal.undef := by
  refine ⟨fun req h => ?_, fun res ib h => ?_, fun e h => ?_,
    rfl, rfl, rfl, rfl⟩
  · rw [serializeReq, if_pos h]
  · rw [responseSerializer, if_pos h]
  · rw [serializeErr, if_pos h]

theorem malformed_serializer_inputs_witness :
    serializeReq (JVal.obj [("url", JVal.str "/x")]) =
      JVal.obj [("url", JVal.str "/x")] ∧
    responseSerializer (JVal.obj [("headers", JVal.obj [])]) false =
      JVal.obj [("headers", JVal.obj [])] ∧
    serializeErr (JVal.obj [("message", JVal.str "boom")]) =
      JVal.obj [("message", JVal.str "boom")] :=
  ⟨malformed_serializer_inputs_unchanged.1 (JVal.obj [("url", JVal.str "/x")])
     rfl,
   malformed_serializer_inputs_unchanged.2.1
     (JVal.obj [("headers", JVal.obj [])]) false rfl,
   malformed_serializer_inputs_unchanged.2.2.1
     (JVal.obj [("message", JVal.str "boom")]) rfl⟩

/-- C10: the middleware's finish handler performs exactly one
informational log call (the single `LogCall` this function returns), with
message `Request finished`, always carrying the `req` and `res` views, and
carrying the `httpRequest` summary and the trace, span and sampled keys if
and only if a Google environment is detected (`GAE_SERVICE` or `K_SERVICE`
truthy) and `excludeHttpRequestField` is not `true`. -/
theorem request_finished_record (env : Env) (excl : Option Bool)
    (req res : JVal) (httpRequest : List (String × JVal)) (trace : String)
    (span : Option String) (sampled : Option Bool) :
    (emitRequestLog env excl req res httpRequest trace span sampled).level
        = 30 ∧
    (emitRequestLog env excl req res httpRequest trace span sampled).msg =
      "Request finished" ∧
    findVal "req"
        (emitRequestLog env excl req res httpRequest trace span
          sampled).fields = some req ∧
    findVal "res"
        (emitRequestLog env excl req res httpRequest trace span
          sampled).fields = some res ∧
    (findVal "httpRequest"
        (emitRequestLog env excl req res httpRequest trace span
          sampled).fields).isSome =
      (strTruthy (getGoogleServiceName env) && !(excl == some true)) ∧
    (findVal loggingTraceKey
        (emitRequestLog env excl req res httpRequest trace span
          sampled).fields).isSome =
      (strTruthy (getGoogleServiceName env) && !(excl == some true)) ∧
    (findVal loggingSpanKey
        (emitRequestLog env excl req res httpRequest trace span
          sampled).fields).isSome =
      (strTruthy (getGoogleServiceName env) && !(excl == some true)) ∧
    (findVal loggingSampledKey
        (emitRequestLog env excl req res httpRequest trace span
          sampled).fields).isSome =
      (strTruthy (getGoogleServiceName env) && !(excl == some true)) := by
  by_cases hc : (strTruthy (getGoogleServiceName env) &&
      !(excl == some true)) = true
  · simp [emitRequestLog, hc, findVal, loggingTraceKey, loggingSpanKey,
      loggingSampledKey]
  · have hc2 : (strTruthy (getGoogleServiceName env) &&
        !(excl == some true)) = false := by
      revert hc
      cases strTruthy (getGoogleServiceName env) && !(excl == some true) <;>
        simp
    simp [emitRequestLog, hc2, findVal, loggingTraceKey, loggingSpanKey,
      loggingSampledKey]

end VLog
